import Mathlib

/-!
# clock-sweep: a fixed-capacity cache with clock-sweep eviction and pinning

A shallow embedding of `clock_sweep.go` and the properties of its
single-threaded behaviour.

Modelling decisions.

* A `*Frame` is an address: an index into `heap`, the list of every frame
  allocated so far.  `c.frames`, the Go slice of frame pointers, is a list of
  `Option Nat` (`none` is the nil pointer).  A frame that `Set` has replaced
  stays in the heap, where a release closure that captured it still finds it.
* The slice is only ever built by `make([]*Frame[K, V], capacity)`, so its `cap`,
  the bound of both loops, is its length.
* Keys are compared as the source compares them, `f.key == key`, with the `==` of
  a `BEq K` instance standing for Go's `==` on the `comparable` type `K`.  Nothing
  is assumed of it: for a float64 key, a NaN is not equal to itself.
* `cnt` and `refCnt` are Go `int`s that move by one per call; they are
  mathematical integers here (wrap-around would need 2^63 calls).
* `mux` is left out: in a single thread every `Lock`/`Unlock` pair brackets a
  counter update and has no effect of its own.
* The value reference `&frame.value` and the release closure are both
  represented by the address of the frame they capture.
* A client is a `Session`: the store and the release closures handed out so far.
  A call sequence may invoke a closure any number of times; correct use, where no
  closure is invoked twice, is the predicate `Session.OnceEach`, and the leases then
  outstanding on a frame are counted by `Session.leases`.
-/

namespace ClockSweepModel

/-- The two sentinel errors of the package. -/
inductive Error where
  | ErrCapacityExceeded
  | ErrKeyNotFound
  deriving DecidableEq, Repr

/-- The struct `Frame[K, V]` without its mutex. -/
structure Frame (K V : Type) where
  cnt : Int
  refCnt : Int
  key : K
  value : V
  deriving DecidableEq, Repr

/-- The struct `ClockSweep[K, V]`: the slice `frames` of frame pointers, together
with the heap those pointers address. -/
structure ClockSweep (K V : Type) where
  heap : List (Frame K V)
  frames : List (Option Nat)
  deriving DecidableEq, Repr

/-- What `Acquire` returns: `val` is the frame whose `value` field the returned
`*V` addresses, `release` the frame captured by the returned closure, `err` the
error; `none` is Go's nil in each. -/
structure AcquireResult where
  val : Option Nat
  release : Option Nat
  err : Option Error
  deriving DecidableEq, Repr

/-- `NewClockSweep(capacity)`: `make` panics on a negative length (`none`);
otherwise `capacity` nil pointers and nothing allocated. -/
def NewClockSweep (K V : Type) (capacity : Int) : Option (ClockSweep K V) :=
  if capacity < 0 then none
  else some ⟨[], List.replicate capacity.toNat none⟩

namespace ClockSweep

variable {K V : Type}

/-- The body of the `for` loop of `Acquire` over the positions still to visit:
`heap` is the heap so far and `frame` the local variable `frame`.  A nil position
is skipped; a frame with the key has `cnt` and `refCnt` incremented and becomes
`frame`; any other frame has `cnt` decremented.  (An address outside the heap
cannot arise in Go; such a position is passed over.) -/
def acquireLoop [BEq K] (key : K) :
    List (Option Nat) → List (Frame K V) → Option Nat → List (Frame K V) × Option Nat
  | [], heap, frame => (heap, frame)
  | none :: rest, heap, frame => acquireLoop key rest heap frame
  | some p :: rest, heap, frame =>
    match heap[p]? with
    | none => acquireLoop key rest heap frame
    | some f =>
      if f.key == key then
        acquireLoop key rest
          (heap.set p ⟨f.cnt + 1, f.refCnt + 1, f.key, f.value⟩) (some p)
      else
        acquireLoop key rest (heap.set p ⟨f.cnt - 1, f.refCnt, f.key, f.value⟩) frame

/-- The method `Acquire`: the full scan, then `ErrKeyNotFound` with two nils when
`frame` is still nil, else the value reference and the release closure of
`frame`. -/
def Acquire [BEq K] (c : ClockSweep K V) (key : K) :
    ClockSweep K V × AcquireResult :=
  match acquireLoop key c.frames c.heap none with
  | (heap, none) => (⟨heap, c.frames⟩, ⟨none, none, some Error.ErrKeyNotFound⟩)
  | (heap, some p) => (⟨heap, c.frames⟩, ⟨some p, some p, none⟩)

/-- The closure returned by `Acquire`, invoked: `frame.refCnt -= 1` on the
captured frame `p`. -/
def release (c : ClockSweep K V) (p : Nat) : ClockSweep K V :=
  match c.heap[p]? with
  | none => c
  | some f => ⟨c.heap.set p ⟨f.cnt, f.refCnt - 1, f.key, f.value⟩, c.frames⟩

/-- The loop of `evict` from index `i` on: the first position that is nil or
whose frame has `cnt == 0 && refCnt == 0`; `(0, false)` when the loop runs out. -/
def evictLoop (heap : List (Frame K V)) : List (Option Nat) → Nat → Nat × Bool
  | [], _ => (0, false)
  | none :: _, i => (i, true)
  | some p :: rest, i =>
    match heap[p]? with
    | none => evictLoop heap rest (i + 1)
    | some f =>
      if f.cnt = 0 ∧ f.refCnt = 0 then (i, true)
      else evictLoop heap rest (i + 1)

/-- The method `evict`. -/
def evict (c : ClockSweep K V) : Nat × Bool :=
  evictLoop c.heap c.frames 0

/-- The method `Set`: `ErrCapacityExceeded` when `evict` finds nothing; otherwise a
freshly allocated frame `cnt: 1, refCnt: 0, key, value` is stored at `freeIdx`. -/
def Set (c : ClockSweep K V) (key : K) (value : V) : ClockSweep K V × Option Error :=
  match c.evict with
  | (_, false) => (c, some Error.ErrCapacityExceeded)
  | (freeIdx, true) =>
    (⟨c.heap ++ [⟨1, 0, key, value⟩], c.frames.set freeIdx (some c.heap.length)⟩, none)

/-- The frame that position `i` points to, `none` for a nil position (or an index
outside the slice). -/
def frameAt (c : ClockSweep K V) (i : Nat) : Option (Frame K V) :=
  match c.frames[i]? with
  | some (some p) => c.heap[p]?
  | _ => none

/-- Dereferencing a value reference returned by `Acquire`. -/
def deref (c : ClockSweep K V) (val : Option Nat) : Option V :=
  match val with
  | none => none
  | some p => (c.heap[p]?).map Frame.value

/-- What one visit of the scan of `Acquire key` does to a frame. -/
def touch [BEq K] (key : K) (f : Frame K V) : Frame K V :=
  if f.key == key then ⟨f.cnt + 1, f.refCnt + 1, f.key, f.value⟩
  else ⟨f.cnt - 1, f.refCnt, f.key, f.value⟩

/-- The value `frame` has after the loop of `Acquire key`, read off the heap as it
was before the loop: the last position whose frame has the key, else `frame`. -/
def lastMatch [BEq K] (key : K) (heap : List (Frame K V)) :
    List (Option Nat) → Option Nat → Option Nat
  | [], frame => frame
  | none :: rest, frame => lastMatch key heap rest frame
  | some p :: rest, frame =>
    match heap[p]? with
    | none => lastMatch key heap rest frame
    | some f => if f.key == key then lastMatch key heap rest (some p)
      else lastMatch key heap rest frame

/-- Position `i` is empty: inside the slice and nil. -/
def Empty (c : ClockSweep K V) (i : Nat) : Prop :=
  c.frames[i]? = some none

/-- Position `i` holds a frame with `cnt == 0` and `refCnt == 0`. -/
def Evictable (c : ClockSweep K V) (i : Nat) : Prop :=
  ∃ f, c.frameAt i = some f ∧ f.cnt = 0 ∧ f.refCnt = 0

/-- Position `i` is eligible: empty, or holding a frame with `cnt == 0` and
`refCnt == 0`. -/
def Eligible (c : ClockSweep K V) (i : Nat) : Prop :=
  c.Empty i ∨ c.Evictable i

/-- The test `evict` makes on one entry of the slice. -/
def slotOk (heap : List (Frame K V)) : Option Nat → Prop
  | none => True
  | some p => ∃ f, heap[p]? = some f ∧ f.cnt = 0 ∧ f.refCnt = 0

/-- The addresses held by the non-nil positions, in index order. -/
def pointers (c : ClockSweep K V) : List Nat :=
  c.frames.reduceOption

/-- Well-formedness of a store as Go builds it: every non-nil position addresses
an allocated frame, and no two positions address the same frame. -/
def WF (c : ClockSweep K V) : Prop :=
  (∀ p ∈ c.pointers, p < c.heap.length) ∧ c.pointers.Nodup

instance (c : ClockSweep K V) : Decidable c.WF := by
  unfold WF; infer_instance

end ClockSweep

/-- One call made by a single-threaded client: `Set`, `Acquire`, or the invocation
of the `n`-th release closure that the client has been handed so far. -/
inductive Call (K V : Type) where
  | set (key : K) (value : V)
  | acquire (key : K)
  | release (n : Nat)

/-- A client session: the store, and the frames captured by the release closures
handed out so far, in the order of the successful `Acquire`s. -/
structure Session (K V : Type) where
  store : ClockSweep K V
  issued : List Nat

namespace Session

variable {K V : Type}

/-- The effect of one call on a session.  Invoking a closure that was never
handed out is not a call the client can make and leaves the session as it is. -/
def step [BEq K] (s : Session K V) : Call K V → Session K V
  | .set key value => ⟨(s.store.Set key value).1, s.issued⟩
  | .acquire key =>
    match (s.store.Acquire key).2.release with
    | some p => ⟨(s.store.Acquire key).1, s.issued ++ [p]⟩
    | none => ⟨(s.store.Acquire key).1, s.issued⟩
  | .release n =>
    match s.issued[n]? with
    | some p => ⟨s.store.release p, s.issued⟩
    | none => s

/-- A sequence of calls, left to right. -/
def run [BEq K] (s : Session K V) (calls : List (Call K V)) : Session K V :=
  calls.foldl step s

end Session

/-- The store `NewClockSweep[int, string](2)` of the package test. -/
def emptyTwo : ClockSweep Nat String := ⟨[], [none, none]⟩

/-- A store of capacity 2 reached by `Set(9, "x")`, `Set(1, "old")`, `Acquire(1)` and
the release of that lease: position 0 has aged to `cnt = 0`, position 1 holds key 1. -/
def staleStore : ClockSweep Nat String :=
  (Session.run ⟨emptyTwo, []⟩ [.set 9 "x", .set 1 "old", .acquire 1, .release 0]).store

/-- A store of capacity 2 reached by `Set(1, "one")` and a missed `Acquire(9)`:
position 0 has aged to `cnt = 0`, position 1 is still empty. -/
def agedStore : ClockSweep Nat String :=
  (Session.run ⟨emptyTwo, []⟩ [.set 1 "one", .acquire 9]).store

/-- The store of the package test just before `Set(3, "three")`: key 1 is pinned at
position 0, key 2 has aged to `cnt = 0` at position 1. -/
def pinnedStore : ClockSweep Nat String :=
  (Session.run ⟨emptyTwo, []⟩
    [.set 1 "one", .acquire 1, .release 0, .acquire 2, .set 2 "two", .acquire 1]).store

namespace Session

variable {K V : Type}

/-- The release closure that one call invokes, by its number: a `release n` naming a
closure already handed out invokes it, any other call invokes none. -/
def invokes (s : Session K V) : Call K V → List Nat
  | .release n => if n < s.issued.length then [n] else []
  | _ => []

/-- The release closures invoked along a sequence of calls, in order. -/
def invoked [BEq K] (s : Session K V) : List (Call K V) → List Nat
  | [] => []
  | call :: rest => s.invokes call ++ invoked (s.step call) rest

/-- Correct use of the release actions along a sequence of calls: none is invoked
twice. -/
def OnceEach [BEq K] (s : Session K V) (calls : List (Call K V)) : Prop :=
  (s.invoked calls).Nodup

instance [BEq K] (s : Session K V) (calls : List (Call K V)) :
    Decidable (s.OnceEach calls) := by
  unfold OnceEach; infer_instance

/-- The number of outstanding leases on frame `p`: release closures handed out that
captured `p` and are not among the invoked ones `done`. -/
def leases (s : Session K V) (done : List Nat) (p : Nat) : Nat :=
  (List.range s.issued.length).countP (fun n => decide (s.issued[n]? = some p ∧ n ∉ done))

/-- The invariant of correct use: the store is well-formed, only closures handed out
have been invoked, every closure captured an allocated frame, the `refCnt` of a frame
is at least the number of outstanding leases on it, and a frame with an outstanding
lease is still addressed by a position of the store. -/
def LeaseInv (s : Session K V) (done : List Nat) : Prop :=
  s.store.WF ∧
  (∀ n ∈ done, n < s.issued.length) ∧
  (∀ q ∈ s.issued, q < s.store.heap.length) ∧
  (∀ (p : Nat) (f : Frame K V), s.store.heap[p]? = some f → (s.leases done p : Int) ≤ f.refCnt) ∧
  (∀ p : Nat, 0 < s.leases done p → p ∈ s.store.pointers)

end Session

namespace ClockSweep

variable {K V : Type}

/-- The store after `n` consecutive calls `Acquire(key)`. -/
def acquireN [BEq K] (c : ClockSweep K V) (key : K) : Nat → ClockSweep K V
  | 0 => c
  | n + 1 => ((acquireN c key n).Acquire key).1

/-- The store after `m` release closures that captured frame `p` have been invoked. -/
def releaseN (c : ClockSweep K V) (p : Nat) : Nat → ClockSweep K V
  | 0 => c
  | m + 1 => (releaseN c p m).release p

end ClockSweep

/-- The number of `Acquire` calls in a sequence of calls. -/
def acquireCount {K V : Type} : List (Call K V) → Nat
  | [] => 0
  | .acquire _ :: rest => acquireCount rest + 1
  | .set _ _ :: rest => acquireCount rest
  | .release _ :: rest => acquireCount rest

/-- The keys of a `ClockSweep[float64, V]` as far as `==` sees them: a number, or a
NaN. -/
inductive FloatKey where
  | num (n : Int)
  | nan

/-- Go's `==` on float64 keys: two numbers are compared by value, and a NaN is equal to
nothing, itself included. -/
instance : BEq FloatKey where
  beq
    | .num m, .num n => m == n
    | _, _ => false

/-- The store `NewClockSweep[int, string](1)`. -/
def emptyOne : ClockSweep Nat String := ⟨[], [none]⟩

/-- A store of capacity 1 reached with a release action invoked twice, `Set(1, "one")`,
`Acquire(1)`, its release twice, and four missed `Acquire(9)`: the frame of key 1 has
`cnt = -2` and `refCnt = -1`. -/
def overReleasedStore : ClockSweep Nat String :=
  (Session.run ⟨emptyOne, []⟩
    [.set 1 "one", .acquire 1, .release 0, .release 0,
      .acquire 9, .acquire 9, .acquire 9, .acquire 9]).store

/-- Every store a single-threaded client can reach from `NewClockSweep(capacity)`. -/
def Reachable {K V : Type} [BEq K] (c : ClockSweep K V) : Prop :=
  ∃ (capacity : Int) (c0 : ClockSweep K V) (calls : List (Call K V)),
    NewClockSweep K V capacity = some c0 ∧ (Session.run ⟨c0, []⟩ calls).store = c

end ClockSweepModel


namespace ClockSweepModel

namespace ClockSweep

variable {K V : Type}

/-! ## The scan of `Acquire` -/

theorem touch_key [BEq K] (key : K) (f : Frame K V) : (touch key f).key = f.key := by
  unfold touch; split <;> rfl

theorem touch_value [BEq K] (key : K) (f : Frame K V) :
    (touch key f).value = f.value := by
  unfold touch; split <;> rfl

theorem acquireLoop_cons_some [BEq K] (key : K) (p : Nat) (rest : List (Option Nat))
    (heap : List (Frame K V)) (frame : Option Nat) (f : Frame K V) (hf : heap[p]? = some f) :
    acquireLoop key (some p :: rest) heap frame
      = acquireLoop key rest (heap.set p (touch key f))
          (if f.key == key then some p else frame) := by
  simp only [acquireLoop, hf, touch]
  split <;> rfl

theorem acquireLoop_cons_dangling [BEq K] (key : K) (p : Nat)
    (rest : List (Option Nat)) (heap : List (Frame K V)) (frame : Option Nat)
    (hf : heap[p]? = none) :
    acquireLoop key (some p :: rest) heap frame = acquireLoop key rest heap frame := by
  simp only [acquireLoop, hf]

/-- The scan allocates nothing. -/
theorem acquireLoop_length [BEq K] (key : K) (ps : List (Option Nat)) :
    ∀ (heap : List (Frame K V)) (frame : Option Nat),
      (acquireLoop key ps heap frame).1.length = heap.length := by
  induction ps with
  | nil => intro heap frame; rfl
  | cons o rest ih =>
    intro heap frame
    cases o with
    | none => simpa [acquireLoop] using ih heap frame
    | some p =>
      cases hf : heap[p]? with
      | none => rw [acquireLoop_cons_dangling key p rest heap frame hf]; exact ih heap frame
      | some f =>
        rw [acquireLoop_cons_some key p rest heap frame f hf, ih, List.length_set]

/-- The heap after the scan: every frame addressed by a visited position has been
touched exactly once, every other frame is as before. -/
theorem acquireLoop_heap [BEq K] (key : K) (ps : List (Option Nat)) :
    ∀ (heap : List (Frame K V)) (frame : Option Nat), ps.reduceOption.Nodup → ∀ q : Nat,
      (acquireLoop key ps heap frame).1[q]?
        = if q ∈ ps.reduceOption then (heap[q]?).map (touch key) else heap[q]? := by
  induction ps with
  | nil => intro heap frame _ q; simp [acquireLoop]
  | cons o rest ih =>
    intro heap frame hnd q
    cases o with
    | none =>
      rw [List.reduceOption_cons_of_none] at hnd ⊢
      simpa [acquireLoop] using ih heap frame hnd q
    | some p =>
      rw [List.reduceOption_cons_of_some] at hnd ⊢
      obtain ⟨hp, hnd⟩ := List.nodup_cons.mp hnd
      cases hf : heap[p]? with
      | none =>
        rw [acquireLoop_cons_dangling key p rest heap frame hf, ih heap frame hnd q]
        by_cases hq : q = p
        · subst hq; simp [hp, hf]
        · simp [hq]
      | some f =>
        rw [acquireLoop_cons_some key p rest heap frame f hf, ih _ _ hnd q]
        have hlt : p < heap.length := (List.getElem?_eq_some.mp hf).1
        by_cases hq : q = p
        · subst hq; simp [hp, hf, List.getElem?_set, hlt]
        · have hne : p ≠ q := fun h => hq h.symm
          simp [hq, List.getElem?_set_ne hne]

/-- The function `lastMatch` reads only the keys of the heap. -/
theorem lastMatch_congr [BEq K] (key : K) (heap heap2 : List (Frame K V))
    (hk : ∀ q : Nat, (heap[q]?).map Frame.key = (heap2[q]?).map Frame.key)
    (ps : List (Option Nat)) :
    ∀ frame, lastMatch key heap ps frame = lastMatch key heap2 ps frame := by
  induction ps with
  | nil => intro frame; rfl
  | cons o rest ih =>
    intro frame
    cases o with
    | none => simpa [lastMatch] using ih frame
    | some p =>
      have h := hk p
      cases hf : heap[p]? with
      | none =>
        cases hf2 : heap2[p]? with
        | none => simpa [lastMatch, hf, hf2] using ih frame
        | some f2 => simp [hf, hf2] at h
      | some f =>
        cases hf2 : heap2[p]? with
        | none => simp [hf, hf2] at h
        | some f2 =>
          have hkey : f.key = f2.key := by simpa [hf, hf2] using h
          simp only [lastMatch, hf, hf2, hkey]
          split
          · exact ih _
          · exact ih _

/-- The local variable `frame` after the scan. -/
theorem acquireLoop_frame [BEq K] (key : K) (ps : List (Option Nat)) :
    ∀ (heap : List (Frame K V)) (frame : Option Nat),
      (acquireLoop key ps heap frame).2 = lastMatch key heap ps frame := by
  induction ps with
  | nil => intro heap frame; rfl
  | cons o rest ih =>
    intro heap frame
    cases o with
    | none => simpa [acquireLoop, lastMatch] using ih heap frame
    | some p =>
      cases hf : heap[p]? with
      | none =>
        rw [acquireLoop_cons_dangling key p rest heap frame hf, ih]
        simp [lastMatch, hf]
      | some f =>
        rw [acquireLoop_cons_some key p rest heap frame f hf, ih]
        have hlt : p < heap.length := (List.getElem?_eq_some.mp hf).1
        have hk : ∀ q : Nat, ((heap.set p (touch key f))[q]?).map Frame.key
            = (heap[q]?).map Frame.key := by
          intro q
          by_cases hq : p = q
          · subst hq; simp [List.getElem?_set, hlt, hf, touch_key]
          · simp [List.getElem?_set_ne hq]
        rw [lastMatch_congr key _ heap hk]
        simp only [lastMatch, hf]
        split <;> rfl

/-! ## The search of `evict` -/

theorem frameAt_eq_some (c : ClockSweep K V) (i : Nat) (f : Frame K V) :
    c.frameAt i = some f ↔ ∃ p, c.frames[i]? = some (some p) ∧ c.heap[p]? = some f := by
  unfold frameAt
  cases h : c.frames[i]? with
  | none => simp
  | some o =>
    cases o with
    | none => simp
    | some p => simp

theorem eligible_iff (c : ClockSweep K V) (i : Nat) :
    c.Eligible i ↔ ∃ o, c.frames[i]? = some o ∧ slotOk c.heap o := by
  unfold Eligible Empty Evictable
  constructor
  · rintro (h | ⟨f, hf, h0, h1⟩)
    · exact ⟨none, h, trivial⟩
    · obtain ⟨p, hp, hpf⟩ := (frameAt_eq_some c i f).mp hf
      exact ⟨some p, hp, f, hpf, h0, h1⟩
  · rintro ⟨o, ho, hok⟩
    cases o with
    | none => exact Or.inl ho
    | some p =>
      obtain ⟨f, hpf, h0, h1⟩ := hok
      exact Or.inr ⟨f, (frameAt_eq_some c i f).mpr ⟨p, ho, hpf⟩, h0, h1⟩

/-- The loop of `evict` stops at the first entry that passes its test, and reports
`(0, false)` exactly when no entry does. -/
theorem evictLoop_cases (heap : List (Frame K V)) (ps : List (Option Nat)) :
    ∀ i : Nat,
      (evictLoop heap ps i = (0, false) ∧ ∀ (k : Nat) (o : Option Nat), ps[k]? = some o →
          ¬ slotOk heap o) ∨
      (∃ (k : Nat) (o : Option Nat), evictLoop heap ps i = (i + k, true) ∧ ps[k]? = some o ∧
          slotOk heap o ∧
          ∀ (m : Nat) (o2 : Option Nat), m < k → ps[m]? = some o2 → ¬ slotOk heap o2) := by
  induction ps with
  | nil => intro i; left; exact ⟨rfl, by simp⟩
  | cons o rest ih =>
    intro i
    cases o with
    | none =>
      right
      exact ⟨0, none, rfl, by simp, trivial, fun m _ hm => absurd hm (Nat.not_lt_zero m)⟩
    | some p =>
      by_cases hok : slotOk heap (some p)
      · right
        obtain ⟨f, hf, h0, h1⟩ := hok
        refine ⟨0, some p, ?_, by simp, ⟨f, hf, h0, h1⟩, fun m _ hm => absurd hm (Nat.not_lt_zero m)⟩
        simp [evictLoop, hf, h0, h1]
      · have hstep : evictLoop heap (some p :: rest) i = evictLoop heap rest (i + 1) := by
          cases hf : heap[p]? with
          | none => simp [evictLoop, hf]
          | some f =>
            have hne : ¬ (f.cnt = 0 ∧ f.refCnt = 0) := fun h => hok ⟨f, hf, h.1, h.2⟩
            simp only [evictLoop, hf, if_neg hne]
        rcases ih (i + 1) with ⟨he, hall⟩ | ⟨k, o, he, hk, hko, hmin⟩
        · left
          refine ⟨hstep.trans he, ?_⟩
          intro k o hk
          cases k with
          | zero =>
            have : o = some p := by simpa using hk.symm
            subst this; exact hok
          | succ k => exact hall k o (by simpa using hk)
        · right
          refine ⟨k + 1, o, ?_, by simpa using hk, hko, ?_⟩
          · rw [hstep, he]; congr 1; omega
          · intro m o2 hm hm2
            cases m with
            | zero =>
              have : o2 = some p := by simpa using hm2.symm
              subst this; exact hok
            | succ m => exact hmin m o2 (by omega) (by simpa using hm2)

/-- The method `evict` returns the smallest eligible index, or `(0, false)` when no
position is eligible. -/
theorem evict_cases (c : ClockSweep K V) :
    (c.evict = (0, false) ∧ ∀ i, ¬ c.Eligible i) ∨
    (∃ i, c.evict = (i, true) ∧ c.Eligible i ∧ ∀ j, j < i → ¬ c.Eligible j) := by
  rcases evictLoop_cases c.heap c.frames 0 with ⟨he, hall⟩ | ⟨k, o, he, hk, hko, hmin⟩
  · left
    refine ⟨he, ?_⟩
    intro i hi
    obtain ⟨o, ho, hok⟩ := (eligible_iff c i).mp hi
    exact hall i o ho hok
  · right
    refine ⟨k, by simpa [evict] using he, (eligible_iff c k).mpr ⟨o, hk, hko⟩, ?_⟩
    intro j hj hel
    obtain ⟨o2, ho2, hok2⟩ := (eligible_iff c j).mp hel
    exact hmin j o2 hj ho2 hok2

theorem eligible_lt_length (c : ClockSweep K V) (i : Nat) (h : c.Eligible i) :
    i < c.frames.length := by
  obtain ⟨o, ho, _⟩ := (eligible_iff c i).mp h
  exact (List.getElem?_eq_some.mp ho).1

theorem evict_true (c : ClockSweep K V) (i : Nat) (h : c.evict = (i, true)) :
    c.Eligible i ∧ ∀ j, j < i → ¬ c.Eligible j := by
  rcases evict_cases c with ⟨he, _⟩ | ⟨k, he, hk, hmin⟩
  · rw [h] at he; simp at he
  · rw [h] at he
    have : i = k := by simpa using he
    subst this; exact ⟨hk, hmin⟩

theorem evict_false (c : ClockSweep K V) (i : Nat) (h : c.evict = (i, false)) :
    i = 0 ∧ ∀ j, ¬ c.Eligible j := by
  rcases evict_cases c with ⟨he, hall⟩ | ⟨k, he, _, _⟩
  · rw [h] at he
    exact ⟨by simpa using he, hall⟩
  · rw [h] at he; simp at he

/-! ## `Set` -/

theorem Set_of_evict_true (c : ClockSweep K V) (key : K) (value : V) (i : Nat)
    (h : c.evict = (i, true)) :
    c.Set key value
      = (⟨c.heap ++ [⟨1, 0, key, value⟩], c.frames.set i (some c.heap.length)⟩, none) := by
  simp [Set, h]

theorem Set_of_evict_false (c : ClockSweep K V) (key : K) (value : V) (i : Nat)
    (h : c.evict = (i, false)) :
    c.Set key value = (c, some Error.ErrCapacityExceeded) := by
  simp [Set, h]

theorem evict_eq_pair (c : ClockSweep K V) : c.evict = (c.evict.1, c.evict.2) := rfl

theorem Set_ok_iff (c : ClockSweep K V) (key : K) (value : V) :
    (c.Set key value).2 = none ↔ c.evict = (c.evict.1, true) := by
  cases hb : c.evict.2 with
  | false =>
    have he : c.evict = (c.evict.1, false) := by rw [← hb]
    rw [Set_of_evict_false c key value _ he]
    constructor
    · intro h; simp at h
    · intro h; rw [h] at hb; simp at hb
  | true =>
    have he : c.evict = (c.evict.1, true) := by rw [← hb]
    rw [Set_of_evict_true c key value _ he]
    exact ⟨fun _ => he, fun _ => rfl⟩

theorem Set_err_iff (c : ClockSweep K V) (key : K) (value : V) :
    (c.Set key value).2 = some Error.ErrCapacityExceeded ↔ c.evict = (0, false) := by
  rcases evict_cases c with ⟨he, _⟩ | ⟨i, he, _, _⟩
  · rw [Set_of_evict_false c key value _ he]; simp [he]
  · rw [Set_of_evict_true c key value _ he]; simp [he]

theorem mem_pointers_iff (c : ClockSweep K V) (p : Nat) :
    p ∈ c.pointers ↔ ∃ i : Nat, c.frames[i]? = some (some p) := by
  unfold pointers
  rw [List.reduceOption_mem_iff, List.mem_iff_getElem?]

/-- In a well-formed store a non-nil position holds a frame. -/
theorem WF.frameAt_of_ptr {c : ClockSweep K V} (hwf : c.WF) (i p : Nat)
    (h : c.frames[i]? = some (some p)) : ∃ f, c.heap[p]? = some f ∧ c.frameAt i = some f := by
  have hlt : p < c.heap.length := hwf.1 p ((mem_pointers_iff c p).mpr ⟨i, h⟩)
  refine ⟨c.heap[p], List.getElem?_eq_getElem hlt, ?_⟩
  rw [frameAt_eq_some]
  exact ⟨p, h, List.getElem?_eq_getElem hlt⟩

/-- The frame at a position other than the one `Set` writes is untouched; the
position written holds the new frame. -/
theorem frameAt_Set (c : ClockSweep K V) (hwf : c.WF) (key : K) (value : V) (i : Nat)
    (he : c.evict = (i, true)) (j : Nat) :
    (c.Set key value).1.frameAt j
      = if j = i then some ⟨1, 0, key, value⟩ else c.frameAt j := by
  have hi : i < c.frames.length := eligible_lt_length c i (evict_true c i he).1
  rw [Set_of_evict_true c key value i he]
  by_cases hji : j = i
  · subst hji
    simp [frameAt, List.getElem?_set, hi]
  · have hij : i ≠ j := fun h => hji h.symm
    simp only [frameAt, List.getElem?_set_ne hij, if_neg hji]
    cases hj : c.frames[j]? with
    | none => rfl
    | some o =>
      cases o with
      | none => rfl
      | some p =>
        obtain ⟨f, hf, _⟩ := hwf.frameAt_of_ptr j p hj
        have hlt : p < c.heap.length := (List.getElem?_eq_some.mp hf).1
        simp [List.getElem?_append_left hlt]

/-! ## Well-formedness is kept by every operation -/

theorem mem_reduceOption_set (l : List (Option Nat)) (i n x : Nat)
    (h : x ∈ (l.set i (some n)).reduceOption) : x = n ∨ x ∈ l.reduceOption := by
  rw [List.reduceOption_mem_iff, List.mem_iff_getElem?] at h
  obtain ⟨j, hj⟩ := h
  rw [List.getElem?_set] at hj
  by_cases hij : i = j
  · rw [if_pos hij] at hj
    by_cases hi : i < l.length
    · rw [if_pos hi] at hj
      left
      have h2 : some n = some x := Option.some.inj hj
      exact (Option.some.inj h2).symm
    · rw [if_neg hi] at hj; exact absurd hj (by simp)
  · rw [if_neg hij] at hj
    right
    rw [List.reduceOption_mem_iff, List.mem_iff_getElem?]
    exact ⟨j, hj⟩

theorem nodup_reduceOption_set (l : List (Option Nat)) (n : Nat) :
    ∀ i : Nat, n ∉ l.reduceOption → l.reduceOption.Nodup →
      (l.set i (some n)).reduceOption.Nodup := by
  induction l with
  | nil => intro i _ _; simp
  | cons o rest ih =>
    intro i hn hnd
    cases i with
    | zero =>
      rw [List.set_cons_zero, List.reduceOption_cons_of_some]
      cases o with
      | none =>
        rw [List.reduceOption_cons_of_none] at hn hnd
        exact List.nodup_cons.mpr ⟨hn, hnd⟩
      | some q =>
        rw [List.reduceOption_cons_of_some] at hn hnd
        exact List.nodup_cons.mpr
          ⟨fun h => hn (List.mem_cons_of_mem q h), (List.nodup_cons.mp hnd).2⟩
    | succ k =>
      rw [List.set_cons_succ]
      cases o with
      | none =>
        rw [List.reduceOption_cons_of_none] at hn hnd ⊢
        exact ih k hn hnd
      | some q =>
        rw [List.reduceOption_cons_of_some] at hn hnd ⊢
        obtain ⟨hq, hnd2⟩ := List.nodup_cons.mp hnd
        have hn2 : n ∉ rest.reduceOption := fun h => hn (List.mem_cons_of_mem q h)
        refine List.nodup_cons.mpr ⟨?_, ih k hn2 hnd2⟩
        intro hmem
        rcases mem_reduceOption_set rest k n q hmem with h | h
        · exact hn (by rw [h]; exact List.mem_cons_self n _)
        · exact hq h

theorem WF_Set (c : ClockSweep K V) (hwf : c.WF) (key : K) (value : V) :
    (c.Set key value).1.WF := by
  rcases evict_cases c with ⟨he, _⟩ | ⟨i, he, _, _⟩
  · rw [Set_of_evict_false c key value _ he]; exact hwf
  · rw [Set_of_evict_true c key value _ he]
    have hfresh : c.heap.length ∉ c.frames.reduceOption := fun h =>
      absurd (hwf.1 _ h) (Nat.lt_irrefl _)
    constructor
    · intro p hp
      simp only [List.length_append, List.length_singleton]
      rcases mem_reduceOption_set c.frames i c.heap.length p hp with h | h
      · omega
      · exact Nat.lt_succ_of_lt (hwf.1 p h)
    · exact nodup_reduceOption_set c.frames c.heap.length i hfresh hwf.2

theorem Acquire_store [BEq K] (c : ClockSweep K V) (key : K) :
    (c.Acquire key).1 = ⟨(acquireLoop key c.frames c.heap none).1, c.frames⟩ := by
  unfold Acquire
  split <;> simp_all

theorem Acquire_result [BEq K] (c : ClockSweep K V) (key : K) :
    (c.Acquire key).2 =
      match lastMatch key c.heap c.frames none with
      | none => ⟨none, none, some Error.ErrKeyNotFound⟩
      | some p => ⟨some p, some p, none⟩ := by
  rw [← acquireLoop_frame]
  unfold Acquire
  split <;> simp_all

theorem Acquire_frames [BEq K] (c : ClockSweep K V) (key : K) :
    (c.Acquire key).1.frames = c.frames := by
  rw [Acquire_store]

theorem Acquire_heap_length [BEq K] (c : ClockSweep K V) (key : K) :
    (c.Acquire key).1.heap.length = c.heap.length := by
  rw [Acquire_store]; exact acquireLoop_length key c.frames c.heap none

theorem WF_Acquire [BEq K] (c : ClockSweep K V) (hwf : c.WF) (key : K) :
    (c.Acquire key).1.WF := by
  unfold WF pointers
  rw [Acquire_frames, Acquire_heap_length]
  exact hwf

theorem release_frames (c : ClockSweep K V) (p : Nat) : (c.release p).frames = c.frames := by
  unfold release; split <;> rfl

theorem release_heap_length (c : ClockSweep K V) (p : Nat) :
    (c.release p).heap.length = c.heap.length := by
  unfold release; split
  · rfl
  · simp

theorem WF_release (c : ClockSweep K V) (hwf : c.WF) (p : Nat) : (c.release p).WF := by
  unfold WF pointers
  rw [release_frames, release_heap_length]
  exact hwf

theorem Set_frames_length (c : ClockSweep K V) (key : K) (value : V) :
    (c.Set key value).1.frames.length = c.frames.length := by
  rcases evict_cases c with ⟨he, _⟩ | ⟨i, he, _, _⟩
  · rw [Set_of_evict_false c key value _ he]
  · rw [Set_of_evict_true c key value _ he]; simp

theorem NewClockSweep_eq (K V : Type) (capacity : Int) (h : 0 ≤ capacity) :
    NewClockSweep K V capacity = some ⟨[], List.replicate capacity.toNat none⟩ := by
  unfold NewClockSweep
  rw [if_neg (by omega)]

theorem NewClockSweep_some (K V : Type) (capacity : Int) (c0 : ClockSweep K V)
    (h : NewClockSweep K V capacity = some c0) :
    0 ≤ capacity ∧ c0 = ⟨[], List.replicate capacity.toNat none⟩ := by
  unfold NewClockSweep at h
  by_cases hc : capacity < 0
  · rw [if_pos hc] at h; exact absurd h (by simp)
  · rw [if_neg hc] at h
    exact ⟨by omega, (Option.some.inj h).symm⟩

theorem reduceOption_replicate_none (n : Nat) :
    (List.replicate n (none : Option Nat)).reduceOption = [] := by
  induction n with
  | zero => rfl
  | succ k ih => rw [List.replicate_succ, List.reduceOption_cons_of_none, ih]

theorem WF_NewClockSweep (capacity : Int) (c0 : ClockSweep K V)
    (h : NewClockSweep K V capacity = some c0) : c0.WF := by
  obtain ⟨_, rfl⟩ := NewClockSweep_some K V capacity c0 h
  unfold WF pointers
  simp [reduceOption_replicate_none]

end ClockSweep

open ClockSweep

variable {K V : Type}

/-! ## Sessions -/

theorem Session.step_set_store [BEq K] (s : Session K V) (key : K) (value : V) :
    (s.step (.set key value)).store = (s.store.Set key value).1 := rfl

theorem Session.step_acquire_store [BEq K] (s : Session K V) (key : K) :
    (s.step (.acquire key)).store = (s.store.Acquire key).1 := by
  simp only [Session.step]
  split <;> rfl

theorem Session.step_release_store [BEq K] (s : Session K V) (n : Nat) :
    (s.step (.release n)).store
      = match s.issued[n]? with
        | some p => s.store.release p
        | none => s.store := by
  simp only [Session.step]
  split <;> rfl

theorem Session.step_WF [BEq K] (s : Session K V) (call : Call K V)
    (hwf : s.store.WF) : (s.step call).store.WF := by
  cases call with
  | set key value => exact WF_Set s.store hwf key value
  | acquire key =>
    rw [Session.step_acquire_store]; exact WF_Acquire s.store hwf key
  | release n =>
    rw [Session.step_release_store]
    split
    · exact WF_release s.store hwf _
    · exact hwf

theorem Session.run_WF [BEq K] (calls : List (Call K V)) :
    ∀ s : Session K V, s.store.WF → (s.run calls).store.WF := by
  induction calls with
  | nil => intro s h; exact h
  | cons call rest ih => intro s h; exact ih (s.step call) (Session.step_WF s call h)

theorem Session.run_append [BEq K] (s : Session K V) (calls calls2 : List (Call K V)) :
    s.run (calls ++ calls2) = (s.run calls).run calls2 := by
  unfold Session.run; rw [List.foldl_append]

theorem Session.step_frames_length [BEq K] (s : Session K V) (call : Call K V) :
    (s.step call).store.frames.length = s.store.frames.length := by
  cases call with
  | set key value => exact Set_frames_length s.store key value
  | acquire key => rw [Session.step_acquire_store, Acquire_frames]
  | release n =>
    rw [Session.step_release_store]
    split
    · rw [release_frames]
    · rfl

theorem Session.run_frames_length [BEq K] (calls : List (Call K V)) :
    ∀ s : Session K V, (s.run calls).store.frames.length = s.store.frames.length := by
  induction calls with
  | nil => intro s; rfl
  | cons call rest ih =>
    intro s
    exact (ih (s.step call)).trans (Session.step_frames_length s call)

/-- Every store a client can reach is well-formed. -/
theorem Reachable.WF [BEq K] {c : ClockSweep K V} (h : Reachable c) : c.WF := by
  obtain ⟨capacity, c0, calls, h0, rfl⟩ := h
  exact Session.run_WF calls ⟨c0, []⟩ (WF_NewClockSweep capacity c0 h0)

/-! ## `Acquire`: the store afterwards and the frame returned -/

theorem heap_Acquire [BEq K] (c : ClockSweep K V) (hwf : c.WF) (key : K) (q : Nat) :
    (c.Acquire key).1.heap[q]?
      = if q ∈ c.pointers then (c.heap[q]?).map (touch key) else c.heap[q]? := by
  rw [Acquire_store]
  exact acquireLoop_heap key c.frames c.heap none hwf.2 q

theorem frameAt_Acquire [BEq K] (c : ClockSweep K V) (hwf : c.WF) (key : K) (i : Nat) :
    (c.Acquire key).1.frameAt i = (c.frameAt i).map (touch key) := by
  unfold frameAt
  rw [Acquire_frames]
  cases hi : c.frames[i]? with
  | none => rfl
  | some o =>
    cases o with
    | none => rfl
    | some p =>
      have hp : p ∈ c.pointers := (mem_pointers_iff c p).mpr ⟨i, hi⟩
      simp only [heap_Acquire c hwf key p, if_pos hp]

theorem lastMatch_no_match [BEq K] (key : K) (heap : List (Frame K V))
    (ps : List (Option Nat)) :
    ∀ frame, (∀ p ∈ ps.reduceOption, ∀ f, heap[p]? = some f → (f.key == key) ≠ true) →
      lastMatch key heap ps frame = frame := by
  induction ps with
  | nil => intro frame _; rfl
  | cons o rest ih =>
    intro frame h
    cases o with
    | none =>
      rw [List.reduceOption_cons_of_none] at h
      simpa [lastMatch] using ih frame h
    | some p =>
      rw [List.reduceOption_cons_of_some] at h
      have hrest : ∀ q ∈ rest.reduceOption, ∀ f, heap[q]? = some f → (f.key == key) ≠ true :=
        fun q hq => h q (List.mem_cons_of_mem p hq)
      cases hf : heap[p]? with
      | none => simpa [lastMatch, hf] using ih frame hrest
      | some f =>
        have hne : (f.key == key) ≠ true := h p (List.mem_cons_self p _) f hf
        simpa [lastMatch, hf, hne] using ih frame hrest

theorem lastMatch_append [BEq K] (key : K) (heap : List (Frame K V))
    (ps qs : List (Option Nat)) :
    ∀ frame, lastMatch key heap (ps ++ qs) frame
      = lastMatch key heap qs (lastMatch key heap ps frame) := by
  induction ps with
  | nil => intro frame; rfl
  | cons o rest ih =>
    intro frame
    cases o with
    | none => simpa [lastMatch] using ih frame
    | some p =>
      cases hf : heap[p]? with
      | none => simpa [lastMatch, hf] using ih frame
      | some f =>
        simp only [List.cons_append, lastMatch, hf]
        split
        · exact ih _
        · exact ih _

/-- The frame found by the scan is the initial one or is addressed by a position and
has the key. -/
theorem lastMatch_some [BEq K] (key : K) (heap : List (Frame K V))
    (ps : List (Option Nat)) :
    ∀ frame p, lastMatch key heap ps frame = some p →
      frame = some p ∨ (p ∈ ps.reduceOption ∧ ∃ f, heap[p]? = some f ∧ (f.key == key) = true) := by
  induction ps with
  | nil => intro frame p h; exact Or.inl h
  | cons o rest ih =>
    intro frame p h
    cases o with
    | none =>
      rw [List.reduceOption_cons_of_none]
      exact ih frame p (by simpa [lastMatch] using h)
    | some q =>
      rw [List.reduceOption_cons_of_some]
      have lift : (p ∈ rest.reduceOption ∧ ∃ f, heap[p]? = some f ∧ (f.key == key) = true) →
          (p ∈ q :: rest.reduceOption ∧ ∃ f, heap[p]? = some f ∧ (f.key == key) = true) :=
        fun hh => ⟨List.mem_cons_of_mem q hh.1, hh.2⟩
      cases hf : heap[q]? with
      | none =>
        rcases ih frame p (by simpa [lastMatch, hf] using h) with h1 | h1
        · exact Or.inl h1
        · exact Or.inr (lift h1)
      | some f =>
        by_cases hk : (f.key == key) = true
        · rcases ih (some q) p (by simpa [lastMatch, hf, hk] using h) with h1 | h1
          · have hqp : q = p := Option.some.inj h1
            subst hqp
            exact Or.inr ⟨List.mem_cons_self q _, f, hf, hk⟩
          · exact Or.inr (lift h1)
        · rcases ih frame p (by simpa [lastMatch, hf, hk] using h) with h1 | h1
          · exact Or.inl h1
          · exact Or.inr (lift h1)

/-- The scan finds nothing exactly when no position addresses a frame with the key. -/
theorem lastMatch_eq_none_iff [BEq K] (key : K) (heap : List (Frame K V))
    (ps : List (Option Nat)) :
    lastMatch key heap ps none = none
      ↔ ∀ p ∈ ps.reduceOption, ∀ f, heap[p]? = some f → (f.key == key) ≠ true := by
  constructor
  · intro h
    induction ps with
    | nil => intro p hp; simp at hp
    | cons o rest ih =>
      cases o with
      | none =>
        rw [List.reduceOption_cons_of_none]
        exact ih (by simpa [lastMatch] using h)
      | some q =>
        rw [List.reduceOption_cons_of_some]
        cases hf : heap[q]? with
        | none =>
          have hrest := ih (by simpa [lastMatch, hf] using h)
          intro p hp f hpf
          rcases List.mem_cons.mp hp with rfl | hp
          · rw [hf] at hpf; exact absurd hpf (by simp)
          · exact hrest p hp f hpf
        | some f0 =>
          by_cases hk : (f0.key == key) = true
          · exfalso
            have h2 : lastMatch key heap rest (some q) = none := by
              simpa [lastMatch, hf, hk] using h
            have : ∀ (fr : Option Nat), fr.isSome → (lastMatch key heap rest fr).isSome := by
              intro fr
              clear h h2 ih
              induction rest generalizing fr with
              | nil => intro hfr; exact hfr
              | cons o2 rest2 ih2 =>
                intro hfr
                cases o2 with
                | none => simpa [lastMatch] using ih2 fr hfr
                | some r =>
                  cases hr : heap[r]? with
                  | none => simpa [lastMatch, hr] using ih2 fr hfr
                  | some g =>
                    simp only [lastMatch, hr]
                    split
                    · exact ih2 (some r) rfl
                    · exact ih2 fr hfr
            have h4 := this (some q) rfl
            rw [h2] at h4
            exact absurd h4 (by simp)
          · have hrest := ih (by simpa [lastMatch, hf, hk] using h)
            intro p hp f hpf
            rcases List.mem_cons.mp hp with rfl | hp
            · rw [hf] at hpf
              have : f0 = f := Option.some.inj hpf
              subst this; exact hk
            · exact hrest p hp f hpf
  · intro h
    exact lastMatch_no_match key heap ps none h

/-- No occupied position holds the key, said of positions and of addresses. -/
theorem no_slot_iff [BEq K] (c : ClockSweep K V) (key : K) :
    (∀ i f, c.frameAt i = some f → (f.key == key) ≠ true)
      ↔ ∀ p ∈ c.pointers, ∀ f, c.heap[p]? = some f → (f.key == key) ≠ true := by
  constructor
  · intro h p hp f hf
    obtain ⟨i, hi⟩ := (mem_pointers_iff c p).mp hp
    exact h i f ((frameAt_eq_some c i f).mpr ⟨p, hi, hf⟩)
  · intro h i f hf
    obtain ⟨p, hi, hpf⟩ := (frameAt_eq_some c i f).mp hf
    exact h p ((mem_pointers_iff c p).mpr ⟨i, hi⟩) f hpf

/-! ## Round trip of `Set` and `Acquire` -/

/-- C1, the failing input evaluated: in a store reached from `NewClockSweep(2)` whose
position 1 still holds key 1 with value "old", `Set(1, "new")` succeeds at position 0
and the immediately following `Acquire(1)` succeeds but returns "old". -/
theorem set_acquire_round_trip_fails :
    NewClockSweep Nat String 2 = some emptyTwo ∧
    staleStore = ⟨[⟨0, 0, 9, "x"⟩, ⟨2, 0, 1, "old"⟩], [some 0, some 1]⟩ ∧
    (staleStore.Set 1 "new").2 = none ∧
    ((staleStore.Set 1 "new").1.Acquire 1).2.err = none ∧
    ((staleStore.Set 1 "new").1.Acquire 1).1.deref
        ((staleStore.Set 1 "new").1.Acquire 1).2.val = some "old" ∧
    ((staleStore.Set 1 "new").1.Acquire 1).1.deref
        ((staleStore.Set 1 "new").1.Acquire 1).2.val ≠ some "new" := by
  decide

/-! ## Pinned frames, the effect of `Acquire`, and its error -/

/-- C2: whenever `evict` returns `(i, true)`, position `i` is empty or holds a frame
with `refCnt == 0` and `cnt == 0`; so in every sequence of calls from
`NewClockSweep(capacity)`, a frame with `refCnt > 0` is not selected by `evict` and is
left at its position, unchanged, by a further `Set`. -/
theorem pinned_never_evicted [BEq K] :
    (∀ (c : ClockSweep K V) (i : Nat), c.evict = (i, true) →
      c.Empty i ∨ ∃ f, c.frameAt i = some f ∧ f.refCnt = 0 ∧ f.cnt = 0) ∧
    (∀ (capacity : Int) (c0 : ClockSweep K V) (calls : List (Call K V)) (key : K) (value : V)
      (i : Nat) (f : Frame K V),
      NewClockSweep K V capacity = some c0 →
      (Session.run ⟨c0, []⟩ calls).store.frameAt i = some f → 0 < f.refCnt →
      (Session.run ⟨c0, []⟩ calls).store.evict ≠ (i, true) ∧
      (Session.run ⟨c0, []⟩ (calls ++ [.set key value])).store.frames[i]?
        = (Session.run ⟨c0, []⟩ calls).store.frames[i]? ∧
      (Session.run ⟨c0, []⟩ (calls ++ [.set key value])).store.frameAt i = some f) := by
  have hfirst : ∀ (c : ClockSweep K V) (i : Nat), c.evict = (i, true) →
      c.Empty i ∨ ∃ f, c.frameAt i = some f ∧ f.refCnt = 0 ∧ f.cnt = 0 := by
    intro c i he
    rcases (evict_true c i he).1 with h | ⟨f, hf, h0, h1⟩
    · exact Or.inl h
    · exact Or.inr ⟨f, hf, h1, h0⟩
  refine ⟨hfirst, ?_⟩
  intro capacity c0 calls key value i f h0 hf hpin
  have hwf : (Session.run ⟨c0, []⟩ calls).store.WF :=
    Session.run_WF calls ⟨c0, []⟩ (WF_NewClockSweep capacity c0 h0)
  rw [Session.run_append]
  generalize (Session.run ⟨c0, []⟩ calls) = s at hf hwf
  have hstep : (s.run [Call.set key value]).store = (s.store.Set key value).1 := rfl
  rw [hstep]
  have hnot : s.store.evict ≠ (i, true) := by
    intro he
    rcases hfirst s.store i he with h | ⟨g, hg, hg0, _⟩
    · obtain ⟨p, hp, _⟩ := (frameAt_eq_some s.store i f).mp hf
      unfold ClockSweep.Empty at h
      rw [hp] at h
      exact absurd h (by simp)
    · rw [hf] at hg
      have : f = g := Option.some.inj hg
      subst this
      omega
  refine ⟨hnot, ?_⟩
  rcases evict_cases s.store with ⟨he, _⟩ | ⟨k, he, _, _⟩
  · rw [Set_of_evict_false s.store key value _ he]
    exact ⟨rfl, hf⟩
  · have hki : k ≠ i := fun hk => hnot (by rw [he, hk])
    refine ⟨?_, ?_⟩
    · rw [Set_of_evict_true s.store key value k he]
      exact List.getElem?_set_ne hki
    · rw [frameAt_Set s.store hwf key value k he i, if_neg (fun h => hki h.symm)]
      exact hf

/-- C2 on the store of the package test: key 1 is pinned at position 0 when
`Set(3, "three")` is called; `evict` selects position 1 and position 0 keeps its
frame. -/
theorem pinned_never_evicted_witness :
    NewClockSweep Nat String 2 = some emptyTwo ∧
    pinnedStore.frameAt 0 = some ⟨2, 1, 1, "one"⟩ ∧
    pinnedStore.evict = (1, true) ∧
    (Session.run ⟨emptyTwo, []⟩
      ([.set 1 "one", .acquire 1, .release 0, .acquire 2, .set 2 "two", .acquire 1]
        ++ [.set 3 "three"])).store.frameAt 0 = some ⟨2, 1, 1, "one"⟩ :=
  ⟨by decide, by decide, by decide,
    ((pinned_never_evicted (K := Nat) (V := String)).2 2 emptyTwo
      [.set 1 "one", .acquire 1, .release 0, .acquire 2, .set 2 "two", .acquire 1]
      3 "three" 0 ⟨2, 1, 1, "one"⟩ (by decide) (by decide) (by decide)).2.2⟩

/-- C3: after `Acquire(key)`, hit or miss, the slice holds the same pointers, every
empty position is still empty, every frame holding `key` has `cnt` and `refCnt` one
higher, every other frame has `cnt` one lower and `refCnt` unchanged, and no key or
value has changed. -/
theorem Acquire_effect [BEq K] (c : ClockSweep K V) (hwf : c.WF) (key : K) :
    (c.Acquire key).1.frames = c.frames ∧
    ∀ i : Nat,
      (c.Empty i → (c.Acquire key).1.Empty i) ∧
      (∀ f, c.frameAt i = some f → (f.key == key) = true →
        (c.Acquire key).1.frameAt i = some ⟨f.cnt + 1, f.refCnt + 1, f.key, f.value⟩) ∧
      (∀ f, c.frameAt i = some f → (f.key == key) ≠ true →
        (c.Acquire key).1.frameAt i = some ⟨f.cnt - 1, f.refCnt, f.key, f.value⟩) := by
  refine ⟨by rw [Acquire_frames], fun i => ⟨?_, ?_, ?_⟩⟩
  · intro h
    unfold ClockSweep.Empty at h ⊢
    rw [Acquire_frames]; exact h
  · intro f hf hk
    rw [frameAt_Acquire c hwf key i, hf]
    simp [touch, hk]
  · intro f hf hk
    rw [frameAt_Acquire c hwf key i, hf]
    simp [touch, hk]

/-- C3 on the store of the package test after `Set(2, "two")`: `Acquire(1)` raises
both counters of key 1 and lowers `cnt` of key 2. -/
theorem Acquire_effect_witness :
    ((⟨[⟨1, 0, 1, "one"⟩, ⟨1, 0, 2, "two"⟩], [some 0, some 1]⟩ :
        ClockSweep Nat String).Acquire 1).1.frameAt 0 = some ⟨2, 1, 1, "one"⟩ ∧
    ((⟨[⟨1, 0, 1, "one"⟩, ⟨1, 0, 2, "two"⟩], [some 0, some 1]⟩ :
        ClockSweep Nat String).Acquire 1).1.frameAt 1 = some ⟨0, 0, 2, "two"⟩ :=
  ⟨((Acquire_effect
      (⟨[⟨1, 0, 1, "one"⟩, ⟨1, 0, 2, "two"⟩], [some 0, some 1]⟩ : ClockSweep Nat String)
      (by decide) 1).2 0).2.1 ⟨1, 0, 1, "one"⟩ (by decide) (by decide),
   ((Acquire_effect
      (⟨[⟨1, 0, 1, "one"⟩, ⟨1, 0, 2, "two"⟩], [some 0, some 1]⟩ : ClockSweep Nat String)
      (by decide) 1).2 1).2.2 ⟨1, 0, 2, "two"⟩ (by decide) (by decide)⟩

/-- C4: `Acquire(key)` fails with `ErrKeyNotFound` exactly when no occupied position
holds `key`; on failure the value reference and the release action are both nil, and
otherwise both are non-nil and the error is nil. -/
theorem Acquire_error_iff [BEq K] (c : ClockSweep K V) (key : K) :
    ((c.Acquire key).2.err = some Error.ErrKeyNotFound
      ↔ ∀ i f, c.frameAt i = some f → (f.key == key) ≠ true) ∧
    ((c.Acquire key).2.err = some Error.ErrKeyNotFound →
      (c.Acquire key).2.val = none ∧ (c.Acquire key).2.release = none) ∧
    ((c.Acquire key).2.err ≠ some Error.ErrKeyNotFound →
      (c.Acquire key).2.val ≠ none ∧ (c.Acquire key).2.release ≠ none ∧
      (c.Acquire key).2.err = none) := by
  have hres := Acquire_result c key
  rw [no_slot_iff]
  unfold pointers
  rw [← lastMatch_eq_none_iff key c.heap c.frames]
  cases hl : lastMatch key c.heap c.frames none with
  | none =>
    rw [hl] at hres
    simp only at hres
    rw [hres]
    simp
  | some p =>
    rw [hl] at hres
    simp only at hres
    rw [hres]
    simp

/-- C4 on the store of the package test: `Acquire(2)` misses with two nils while
key 1 is the only key held, and `Acquire(1)` hits. -/
theorem Acquire_error_iff_witness :
    (((⟨[⟨2, 0, 1, "one"⟩], [some 0, none]⟩ : ClockSweep Nat String).Acquire 2).2.val = none ∧
      ((⟨[⟨2, 0, 1, "one"⟩], [some 0, none]⟩ : ClockSweep Nat String).Acquire 2).2.release
        = none) ∧
    ((⟨[⟨2, 0, 1, "one"⟩], [some 0, none]⟩ : ClockSweep Nat String).Acquire 1).2.err
      = none :=
  ⟨(Acquire_error_iff
      (⟨[⟨2, 0, 1, "one"⟩], [some 0, none]⟩ : ClockSweep Nat String) 2).2.1 (by decide),
   ((Acquire_error_iff
      (⟨[⟨2, 0, 1, "one"⟩], [some 0, none]⟩ : ClockSweep Nat String) 1).2.2
        (by decide)).2.2⟩

/-! ## `Set` and `evict` -/

theorem evict_of_first_eligible (c : ClockSweep K V) (i : Nat) (hi : c.Eligible i)
    (hmin : ∀ j, j < i → ¬ c.Eligible j) : c.evict = (i, true) := by
  rcases evict_cases c with ⟨_, hall⟩ | ⟨k, he, hk, hkmin⟩
  · exact absurd hi (hall i)
  · rcases Nat.lt_trichotomy k i with h | h | h
    · exact absurd hk (hmin k h)
    · rw [he, h]
    · exact absurd hi (hkmin i h)

theorem evict_of_none_eligible (c : ClockSweep K V) (hall : ∀ i, ¬ c.Eligible i) :
    c.evict = (0, false) := by
  rcases evict_cases c with ⟨he, _⟩ | ⟨k, _, hk, _⟩
  · exact he
  · exact absurd hk (hall k)

/-- In a well-formed store, no position is eligible exactly when every position of
the slice holds a frame with `cnt != 0` or `refCnt != 0`. -/
theorem none_eligible_iff (c : ClockSweep K V) (hwf : c.WF) :
    (∀ i, ¬ c.Eligible i)
      ↔ ∀ i, i < c.frames.length → ∃ f, c.frameAt i = some f ∧ (f.cnt ≠ 0 ∨ f.refCnt ≠ 0) := by
  constructor
  · intro hall i hi
    cases ho : c.frames[i]? with
    | none =>
      rw [List.getElem?_eq_none_iff] at ho
      omega
    | some o =>
      cases o with
      | none => exact absurd (Or.inl ho) (hall i)
      | some p =>
        obtain ⟨f, _, hfa⟩ := hwf.frameAt_of_ptr i p ho
        refine ⟨f, hfa, ?_⟩
        by_contra hcon
        have h0 : f.cnt = 0 := by
          by_contra h; exact hcon (Or.inl h)
        have h1 : f.refCnt = 0 := by
          by_contra h; exact hcon (Or.inr h)
        exact hall i (Or.inr ⟨f, hfa, h0, h1⟩)
  · intro h i hel
    obtain ⟨f, hfa, hne⟩ := h i (eligible_lt_length c i hel)
    rcases hel with he | ⟨g, hg, h0, h1⟩
    · unfold ClockSweep.Empty at he
      unfold frameAt at hfa
      rw [he] at hfa
      exact absurd hfa (by simp)
    · rw [hfa] at hg
      have : f = g := Option.some.inj hg
      subst this
      rcases hne with h | h
      · exact h h0
      · exact h h1

/-- C5: in a well-formed store `Set(key, value)` fails with `ErrCapacityExceeded`
exactly when every position holds a frame with `cnt != 0` or `refCnt != 0`, so always
when the slice has no position; a failed `Set` returns the store as it was. -/
theorem Set_error_iff (c : ClockSweep K V) (hwf : c.WF) (key : K) (value : V) :
    ((c.Set key value).2 = some Error.ErrCapacityExceeded
      ↔ ∀ i, i < c.frames.length →
          ∃ f, c.frameAt i = some f ∧ (f.cnt ≠ 0 ∨ f.refCnt ≠ 0)) ∧
    ((c.Set key value).2 = some Error.ErrCapacityExceeded → (c.Set key value).1 = c) ∧
    (c.frames.length = 0 → (c.Set key value).2 = some Error.ErrCapacityExceeded) := by
  have hiff : (c.Set key value).2 = some Error.ErrCapacityExceeded
      ↔ ∀ i, i < c.frames.length →
          ∃ f, c.frameAt i = some f ∧ (f.cnt ≠ 0 ∨ f.refCnt ≠ 0) := by
    rw [Set_err_iff, ← none_eligible_iff c hwf]
    exact ⟨fun h => (evict_false c 0 h).2, evict_of_none_eligible c⟩
  refine ⟨hiff, ?_, ?_⟩
  · intro h
    rw [Set_err_iff] at h
    rw [Set_of_evict_false c key value 0 h]
  · intro h0
    exact hiff.mpr (fun i hi => absurd hi (by omega))

/-- C5 on the store of the package test with both keys pinned or recently touched:
`Set(3, "three")` fails and returns the same store. -/
theorem Set_error_iff_witness :
    ((⟨[⟨2, 1, 1, "one"⟩, ⟨1, 0, 2, "two"⟩], [some 0, some 1]⟩ :
        ClockSweep Nat String).Set 3 "three").1
      = ⟨[⟨2, 1, 1, "one"⟩, ⟨1, 0, 2, "two"⟩], [some 0, some 1]⟩ ∧
    ((⟨[], []⟩ : ClockSweep Nat String).Set 3 "three").2
      = some Error.ErrCapacityExceeded :=
  ⟨(Set_error_iff
      (⟨[⟨2, 1, 1, "one"⟩, ⟨1, 0, 2, "two"⟩], [some 0, some 1]⟩ : ClockSweep Nat String)
      (by decide) 3 "three").2.1 (by decide),
   (Set_error_iff (⟨[], []⟩ : ClockSweep Nat String) (by decide) 3 "three").2.2 rfl⟩

/-- C6: when `Set(key, value)` succeeds in a well-formed store, the position returned
by `evict` holds a frame with `cnt = 1`, `refCnt = 0`, the key and the value, whatever
was there before, and every other position has the same pointer and the same
frame as before. -/
theorem Set_installs (c : ClockSweep K V) (hwf : c.WF) (key : K) (value : V)
    (hs : (c.Set key value).2 = none) :
    (c.Set key value).1.frameAt c.evict.1 = some ⟨1, 0, key, value⟩ ∧
    (c.Set key value).1.frames.length = c.frames.length ∧
    ∀ j, j ≠ c.evict.1 →
      (c.Set key value).1.frames[j]? = c.frames[j]? ∧
      (c.Set key value).1.frameAt j = c.frameAt j := by
  have he : c.evict = (c.evict.1, true) := (Set_ok_iff c key value).mp hs
  refine ⟨?_, Set_frames_length c key value, ?_⟩
  · rw [frameAt_Set c hwf key value _ he, if_pos rfl]
  · intro j hj
    refine ⟨?_, ?_⟩
    · rw [Set_of_evict_true c key value _ he]
      exact List.getElem?_set_ne (fun h => hj h.symm)
    · rw [frameAt_Set c hwf key value _ he, if_neg hj]

/-- C6 on the store of the package test: `Set(3, "three")` overwrites the aged key 2
at position 1 and leaves the pinned key 1 at position 0. -/
theorem Set_installs_witness :
    (pinnedStore.Set 3 "three").2 = none ∧
    pinnedStore.evict.1 = 1 ∧
    (pinnedStore.Set 3 "three").1.frameAt 1 = some ⟨1, 0, 3, "three"⟩ ∧
    (pinnedStore.Set 3 "three").1.frameAt 0 = pinnedStore.frameAt 0 :=
  ⟨by decide, by decide,
   (Set_installs pinnedStore (by decide) 3 "three" (by decide)).1,
   ((Set_installs pinnedStore (by decide) 3 "three" (by decide)).2.2 0 (by decide)).2⟩

/-- C7, counterexample: in a store reached from `NewClockSweep(2)` position 1 is the
lowest-index empty position, yet `evict` returns position 0, whose frame has aged to
`cnt == 0` and `refCnt == 0`. -/
theorem evict_prefers_empty_counterexample :
    NewClockSweep Nat String 2 = some emptyTwo ∧
    agedStore = ⟨[⟨0, 0, 1, "one"⟩], [some 0, none]⟩ ∧
    agedStore.Empty 1 ∧ ¬ agedStore.Empty 0 ∧
    agedStore.evict = (0, true) ∧ agedStore.evict ≠ (1, true) := by
  refine ⟨by decide, by decide, ?_, ?_, by decide, by decide⟩
  · show agedStore.frames[1]? = some none
    decide
  · show ¬ (agedStore.frames[0]? = some none)
    decide

/-- C7, amended: `evict` returns the lowest-index empty position when no position
before it holds a frame with `cnt == 0` and `refCnt == 0`; it returns the lowest-index
position holding such a frame when no position before it is empty; and it reports
not-found when no position is empty and none holds such a frame. -/
theorem evict_empty_or_evictable (c : ClockSweep K V) :
    (∀ i, c.Empty i → (∀ j, j < i → ¬ c.Empty j) → (∀ j, j < i → ¬ c.Evictable j) →
      c.evict = (i, true)) ∧
    (∀ i, c.Evictable i → (∀ j, j < i → ¬ c.Evictable j) → (∀ j, j < i → ¬ c.Empty j) →
      c.evict = (i, true)) ∧
    ((∀ i, ¬ c.Empty i) → (∀ i, ¬ c.Evictable i) → c.evict = (0, false)) := by
  refine ⟨?_, ?_, ?_⟩
  · intro i hi h1 h2
    exact evict_of_first_eligible c i (Or.inl hi)
      (fun j hj hel => hel.elim (h1 j hj) (h2 j hj))
  · intro i hi h1 h2
    exact evict_of_first_eligible c i (Or.inr hi)
      (fun j hj hel => hel.elim (h2 j hj) (h1 j hj))
  · intro h1 h2
    exact evict_of_none_eligible c (fun i hel => hel.elim (h1 i) (h2 i))

/-- C7, amended, on the aged store: position 0 holds a frame with both counters at
zero and nothing precedes it, so `evict` returns it although position 1 is empty. -/
theorem evict_empty_or_evictable_witness :
    agedStore.Evictable 0 ∧ agedStore.evict = (0, true) :=
  ⟨⟨⟨0, 0, 1, "one"⟩, by decide, rfl, rfl⟩,
   (evict_empty_or_evictable agedStore).2.1 0 ⟨⟨0, 0, 1, "one"⟩, by decide, rfl, rfl⟩
     (fun j hj => absurd hj (Nat.not_lt_zero j))
     (fun j hj => absurd hj (Nat.not_lt_zero j))⟩

/-- C8: `evict` returns `(i, true)` for the smallest eligible index `i` when a position
is eligible (empty, or holding a frame with `cnt == 0` and `refCnt == 0`) and `(0, false)`
when none is; two stores with the same empty positions and the same frames at every
position get the same answer. -/
theorem evict_first_eligible (c : ClockSweep K V) :
    ((∃ i, c.Eligible i) →
      ∃ i, c.evict = (i, true) ∧ c.Eligible i ∧ ∀ j, j < i → ¬ c.Eligible j) ∧
    (∀ i, c.Eligible i → (∀ j, j < i → ¬ c.Eligible j) → c.evict = (i, true)) ∧
    ((¬ ∃ i, c.Eligible i) → c.evict = (0, false)) ∧
    (∀ c2 : ClockSweep K V, (∀ i, c2.Empty i ↔ c.Empty i) →
      (∀ i, c2.frameAt i = c.frameAt i) → c2.evict = c.evict) := by
  refine ⟨?_, evict_of_first_eligible c, ?_, ?_⟩
  · rintro ⟨i, hi⟩
    rcases evict_cases c with ⟨_, hall⟩ | h
    · exact absurd hi (hall i)
    · exact h
  · intro h
    exact evict_of_none_eligible c (fun i hi => h ⟨i, hi⟩)
  · intro c2 hempty hframe
    have hel : ∀ i, c2.Eligible i ↔ c.Eligible i := by
      intro i
      unfold Eligible Evictable
      rw [hempty i, hframe i]
    rcases evict_cases c with ⟨he, hall⟩ | ⟨k, he, hk, hmin⟩
    · rw [he]
      exact evict_of_none_eligible c2 (fun i hi => hall i ((hel i).mp hi))
    · rw [he]
      exact evict_of_first_eligible c2 k ((hel k).mpr hk)
        (fun j hj hj2 => hmin j hj ((hel j).mp hj2))

/-- C8 on the store of the package test: position 0 is pinned, position 1 has both
counters at zero and is the smallest eligible index, and `evict` returns it. -/
theorem evict_first_eligible_witness :
    pinnedStore.Eligible 1 ∧ ¬ pinnedStore.Eligible 0 ∧ pinnedStore.evict = (1, true) :=
  have h1 : pinnedStore.Eligible 1 := Or.inr ⟨⟨0, 0, 2, "two"⟩, by decide, rfl, rfl⟩
  have h0 : ¬ pinnedStore.Eligible 0 := by
    rintro (h | ⟨f, hf, _, hr⟩)
    · exact absurd h (by unfold ClockSweep.Empty; decide)
    · have : f = ⟨2, 1, 1, "one"⟩ := by
        have h2 : pinnedStore.frameAt 0 = some ⟨2, 1, 1, "one"⟩ := by decide
        rw [h2] at hf
        exact (Option.some.inj hf).symm
      subst this
      exact absurd hr (by decide)
  ⟨h1, h0, (evict_first_eligible pinnedStore).2.1 1 h1 (fun j hj => by
    have : j = 0 := by omega
    subst this; exact h0)⟩

/-! ## The release action and the capacity -/

theorem release_heap (c : ClockSweep K V) (p q : Nat) :
    (c.release p).heap[q]?
      = if q = p then (c.heap[p]?).map (fun f => ⟨f.cnt, f.refCnt - 1, f.key, f.value⟩)
        else c.heap[q]? := by
  unfold release
  cases hf : c.heap[p]? with
  | none =>
    by_cases hq : q = p
    · subst hq; simp [hf]
    · simp [hq]
  | some f =>
    have hlt : p < c.heap.length := (List.getElem?_eq_some.mp hf).1
    by_cases hq : q = p
    · subst hq; simp [List.getElem?_set, hlt]
    · have hne : p ≠ q := fun h => hq h.symm
      simp [hq, List.getElem?_set_ne hne]

/-- The frame captured by the release action of a successful `Acquire(key)` is
addressed by a position of the store and holds `key`. -/
theorem Acquire_release_some [BEq K] (c : ClockSweep K V) (key : K) (p : Nat)
    (h : (c.Acquire key).2.release = some p) :
    (c.Acquire key).2 = ⟨some p, some p, none⟩ ∧ p ∈ c.pointers ∧
      ∃ f, c.heap[p]? = some f ∧ (f.key == key) = true := by
  have hres := Acquire_result c key
  cases hl : lastMatch key c.heap c.frames none with
  | none =>
    rw [hl] at hres
    simp only at hres
    rw [hres] at h
    exact absurd h (by simp)
  | some q =>
    rw [hl] at hres
    simp only at hres
    rw [hres] at h
    have hqp : q = p := Option.some.inj h
    subst hqp
    refine ⟨hres, ?_⟩
    rcases lastMatch_some key c.heap c.frames none q hl with h1 | h1
    · exact absurd h1 (by simp)
    · exact h1

/-- C9: invoking the release action of a successful `Acquire` lowers `refCnt` of the
frame that `Acquire` returned by one and leaves its `cnt`, key and value, every other
frame, and every position of the store as they were; after `Acquire` and its release
that frame has `cnt` one higher and the `refCnt` it had before the `Acquire`. -/
theorem release_effect [BEq K] (c : ClockSweep K V) (hwf : c.WF) (key : K) (p : Nat)
    (h : (c.Acquire key).2.release = some p) :
    (c.Acquire key).2.val = some p ∧
    (∃ f1, (c.Acquire key).1.heap[p]? = some f1 ∧
      ((c.Acquire key).1.release p).heap[p]?
        = some ⟨f1.cnt, f1.refCnt - 1, f1.key, f1.value⟩) ∧
    (∀ q : Nat, q ≠ p →
      ((c.Acquire key).1.release p).heap[q]? = (c.Acquire key).1.heap[q]?) ∧
    ((c.Acquire key).1.release p).frames = (c.Acquire key).1.frames ∧
    (∀ j : Nat, (c.Acquire key).1.frames[j]? ≠ some (some p) →
      ((c.Acquire key).1.release p).frameAt j = (c.Acquire key).1.frameAt j) ∧
    (∃ f0, c.heap[p]? = some f0 ∧
      ((c.Acquire key).1.release p).heap[p]?
        = some ⟨f0.cnt + 1, f0.refCnt, f0.key, f0.value⟩) := by
  obtain ⟨hres, hp, f0, hf0, hk⟩ := Acquire_release_some c key p h
  have hheap : (c.Acquire key).1.heap[p]?
      = some ⟨f0.cnt + 1, f0.refCnt + 1, f0.key, f0.value⟩ := by
    rw [heap_Acquire c hwf key p, if_pos hp, hf0]
    simp [touch, hk]
  have hother : ∀ q : Nat, q ≠ p →
      ((c.Acquire key).1.release p).heap[q]? = (c.Acquire key).1.heap[q]? := by
    intro q hq
    rw [release_heap, if_neg hq]
  refine ⟨by rw [hres], ⟨_, hheap, ?_⟩, hother, release_frames _ p, ?_, ⟨f0, hf0, ?_⟩⟩
  · rw [release_heap, if_pos rfl, hheap]; rfl
  · intro j hj
    unfold frameAt
    rw [release_frames]
    cases hfj : (c.Acquire key).1.frames[j]? with
    | none => rfl
    | some o =>
      cases o with
      | none => rfl
      | some q =>
        have hq : q ≠ p := by
          intro hqp
          subst hqp
          exact hj hfj
        exact hother q hq
  · rw [release_heap, if_pos rfl, hheap]
    simp

/-- C9 on the store of the package test: after `Acquire(1)` and its release the frame
of key 1 has `cnt = 2` and `refCnt = 0`. -/
theorem release_effect_witness :
    ((⟨[⟨1, 0, 1, "one"⟩], [some 0, none]⟩ : ClockSweep Nat String).Acquire 1).2.release
      = some 0 ∧
    ∃ f0, (⟨[⟨1, 0, 1, "one"⟩], [some 0, none]⟩ : ClockSweep Nat String).heap[0]? = some f0 ∧
      (((⟨[⟨1, 0, 1, "one"⟩], [some 0, none]⟩ : ClockSweep Nat String).Acquire 1).1.release
          0).heap[0]?
        = some ⟨f0.cnt + 1, f0.refCnt, f0.key, f0.value⟩ :=
  ⟨by decide,
   (release_effect (⟨[⟨1, 0, 1, "one"⟩], [some 0, none]⟩ : ClockSweep Nat String)
      (by decide) 1 0 (by decide)).2.2.2.2.2⟩

/-- C10: for every capacity `C >= 1`, `NewClockSweep(C)` returns a store, and after every
sequence of `Set`, `Acquire` and release calls the slice still has exactly `C` positions, so
at most `C` of them are occupied. -/
theorem capacity_invariant [BEq K] (C : Int) (hC : 1 ≤ C) (calls : List (Call K V)) :
    ∃ c0 : ClockSweep K V, NewClockSweep K V C = some c0 ∧
      ((Session.run ⟨c0, []⟩ calls).store.frames.length : Int) = C ∧
      ((Session.run ⟨c0, []⟩ calls).store.pointers.length : Int) ≤ C := by
  have h0 : 0 ≤ C := by omega
  refine ⟨⟨[], List.replicate C.toNat none⟩, NewClockSweep_eq K V C h0, ?_⟩
  have hlen : (Session.run ⟨⟨[], List.replicate C.toNat none⟩, []⟩ calls).store.frames.length
      = C.toNat := by
    rw [Session.run_frames_length]; simp
  have hle := List.reduceOption_length_le
    (Session.run ⟨⟨[], List.replicate C.toNat none⟩, []⟩ calls).store.frames
  unfold pointers
  omega

/-- C10 on the calls of the package test, capacity 2. -/
theorem capacity_invariant_witness :
    ∃ c0 : ClockSweep Nat String, NewClockSweep Nat String 2 = some c0 ∧
      ((Session.run ⟨c0, []⟩
        [.set 1 "one", .acquire 1, .release 0, .acquire 2, .set 2 "two", .acquire 1,
          .set 3 "three", .release 1]).store.frames.length : Int) = 2 ∧
      ((Session.run ⟨c0, []⟩
        [.set 1 "one", .acquire 1, .release 0, .acquire 2, .set 2 "two", .acquire 1,
          .set 3 "three", .release 1]).store.pointers.length : Int) ≤ 2 :=
  capacity_invariant 2 (by decide)
    [.set 1 "one", .acquire 1, .release 0, .acquire 2, .set 2 "two", .acquire 1,
      .set 3 "three", .release 1]

/-! ## Counting outstanding leases -/

theorem countP_remove (P : Nat → Prop) [DecidablePred P] (n : Nat) :
    ∀ l : List Nat, l.Nodup → n ∈ l →
      l.countP (fun m => decide (P m ∧ m ≠ n)) + (if P n then 1 else 0)
        = l.countP (fun m => decide (P m)) := by
  intro l
  induction l with
  | nil => intro _ h; simp at h
  | cons a rest ih =>
    intro hnd hmem
    obtain ⟨ha, hnd2⟩ := List.nodup_cons.mp hnd
    rw [List.countP_cons, List.countP_cons]
    by_cases han : a = n
    · subst han
      have hrest : rest.countP (fun m => decide (P m ∧ m ≠ a))
          = rest.countP (fun m => decide (P m)) := by
        apply List.countP_congr
        intro x hx
        have hxa : x ≠ a := fun h => ha (h ▸ hx)
        simp [hxa]
      rw [hrest]
      simp
    · have hn : n ∈ rest := by
        rcases List.mem_cons.mp hmem with h | h
        · exact absurd h.symm han
        · exact h
      have hrec := ih hnd2 hn
      by_cases hPa : P a
      · have e1 : (fun m => decide (P m ∧ m ≠ n)) a = true := decide_eq_true ⟨hPa, han⟩
        have e2 : (fun m => decide (P m)) a = true := decide_eq_true hPa
        rw [if_pos e1, if_pos e2]
        omega
      · have e1 : ¬ ((fun m => decide (P m ∧ m ≠ n)) a = true) := by
          intro h
          exact hPa (of_decide_eq_true h).1
        have e2 : ¬ ((fun m => decide (P m)) a = true) := by
          intro h
          exact hPa (of_decide_eq_true h)
        rw [if_neg e1, if_neg e2]
        omega

theorem Session.leases_append_issued (s t : Session K V) (done : List Nat) (p q : Nat)
    (ht : t.issued = s.issued ++ [q]) (hdone : ∀ n ∈ done, n < s.issued.length) :
    t.leases done p = s.leases done p + (if q = p then 1 else 0) := by
  unfold Session.leases
  rw [ht, List.length_append, List.length_singleton, List.range_succ, List.countP_append]
  have hlast : s.issued.length ∉ done := fun h => Nat.lt_irrefl _ (hdone _ h)
  congr 1
  · apply List.countP_congr
    intro n hn
    have hlt : n < s.issued.length := List.mem_range.mp hn
    simp [List.getElem?_append_left hlt]
  · rw [List.countP_singleton]
    simp [hlast]

theorem Session.leases_same_issued (s t : Session K V) (done : List Nat) (p : Nat)
    (ht : t.issued = s.issued) : t.leases done p = s.leases done p := by
  unfold Session.leases; rw [ht]

theorem Session.leases_invoke (s : Session K V) (done : List Nat) (n p q : Nat)
    (hq : s.issued[n]? = some q) (hn : n ∉ done) :
    s.leases (done ++ [n]) p + (if q = p then 1 else 0) = s.leases done p := by
  unfold Session.leases
  have hlt : n < s.issued.length := (List.getElem?_eq_some.mp hq).1
  have h := countP_remove (fun m => s.issued[m]? = some p ∧ m ∉ done) n
    (List.range s.issued.length) (List.nodup_range _) (List.mem_range.mpr hlt)
  have hcongr : (List.range s.issued.length).countP
        (fun m => decide (s.issued[m]? = some p ∧ m ∉ done ++ [n]))
      = (List.range s.issued.length).countP
        (fun m => decide ((s.issued[m]? = some p ∧ m ∉ done) ∧ m ≠ n)) := by
    apply List.countP_congr
    intro x _
    simp [and_assoc]
  rw [hcongr, ← h]
  congr 1
  by_cases hqp : q = p
  · subst hqp; simp [hq, hn]
  · have : ¬ (s.issued[n]? = some p) := by
      rw [hq]; intro h2; exact hqp (Option.some.inj h2)
    simp [hqp, this]

theorem Session.leases_pos (s : Session K V) (done : List Nat) (n p : Nat)
    (hp : s.issued[n]? = some p) (hn : n ∉ done) : 0 < s.leases done p := by
  unfold Session.leases
  rw [List.countP_pos_iff]
  exact ⟨n, List.mem_range.mpr (List.getElem?_eq_some.mp hp).1, by simp [hp, hn]⟩

theorem Session.leases_eq_zero (s : Session K V) (done : List Nat) (p : Nat)
    (hp : p ∉ s.issued) : s.leases done p = 0 := by
  unfold Session.leases
  rw [List.countP_eq_zero]
  intro n _ h
  have h2 : s.issued[n]? = some p := by
    simp only [decide_eq_true_eq] at h
    exact h.1
  exact hp (List.mem_iff_getElem?.mpr ⟨n, h2⟩)

/-! ## The invariant of correct use -/

theorem touch_refCnt [BEq K] (key : K) (f : Frame K V) :
    f.refCnt ≤ (touch key f).refCnt ∧ ((f.key == key) = true → (touch key f).refCnt = f.refCnt + 1) := by
  unfold touch
  split
  · exact ⟨by simp, fun _ => rfl⟩
  · rename_i hne
    exact ⟨le_refl _, fun h => absurd h hne⟩

/-- The `refCnt` of a frame never goes down in `Acquire`, and goes up by one when the
frame is addressed by a position and holds the key. -/
theorem heap_Acquire_refCnt [BEq K] (c : ClockSweep K V) (hwf : c.WF) (key : K)
    (p : Nat) (f : Frame K V) (hf : (c.Acquire key).1.heap[p]? = some f) :
    ∃ f0, c.heap[p]? = some f0 ∧ f0.refCnt ≤ f.refCnt ∧
      (p ∈ c.pointers → (f0.key == key) = true → f.refCnt = f0.refCnt + 1) := by
  rw [heap_Acquire c hwf key p] at hf
  cases h0 : c.heap[p]? with
  | none => rw [h0] at hf; simp at hf
  | some f0 =>
    rw [h0] at hf
    refine ⟨f0, rfl, ?_, ?_⟩
    · by_cases hp : p ∈ c.pointers
      · rw [if_pos hp] at hf
        have : touch key f0 = f := by simpa using hf
        rw [← this]; exact (touch_refCnt key f0).1
      · rw [if_neg hp] at hf
        have : f0 = f := by simpa using hf
        rw [this]
    · intro hp hk
      rw [if_pos hp] at hf
      have : touch key f0 = f := by simpa using hf
      rw [← this]; exact (touch_refCnt key f0).2 hk

theorem Session.LeaseInv_set [BEq K] (s : Session K V) (done : List Nat)
    (key : K) (value : V) (h : s.LeaseInv done) :
    (s.step (.set key value)).LeaseInv done := by
  obtain ⟨hwf, hdone, hissued, href, hinst⟩ := h
  have hleases : ∀ p, (s.step (.set key value)).leases done p = s.leases done p :=
    fun p => rfl
  rcases evict_cases s.store with ⟨he, _⟩ | ⟨i, he, hel, _⟩
  · have hst : s.step (.set key value) = s := by
      show (⟨(s.store.Set key value).1, s.issued⟩ : Session K V) = s
      rw [Set_of_evict_false s.store key value _ he]
    rw [hst]; exact ⟨hwf, hdone, hissued, href, hinst⟩
  · have hstore : (s.step (.set key value)).store
        = ⟨s.store.heap ++ [⟨1, 0, key, value⟩],
            s.store.frames.set i (some s.store.heap.length)⟩ := by
      show (s.store.Set key value).1 = _
      rw [Set_of_evict_true s.store key value i he]
    refine ⟨Session.step_WF s _ hwf, hdone, ?_, ?_, ?_⟩
    · intro q hq
      rw [hstore]
      have := hissued q hq
      simp only [List.length_append, List.length_singleton]
      omega
    · intro p f hf
      rw [hleases]
      rw [hstore] at hf
      simp only at hf
      by_cases hlt : p < s.store.heap.length
      · rw [List.getElem?_append_left hlt] at hf; exact href p f hf
      · have hp : p ∉ s.issued := fun hmem => hlt (hissued p hmem)
        rw [Session.leases_eq_zero s done p hp]
        by_cases heq : p = s.store.heap.length
        · subst heq
          have : (⟨1, 0, key, value⟩ : Frame K V) = f := by simpa using hf
          rw [← this]; simp
        · rw [List.getElem?_eq_none (by
            simp only [List.length_append, List.length_singleton]; omega)] at hf
          exact absurd hf (by simp)
    · intro p hp
      rw [hleases] at hp
      have hmem := hinst p hp
      obtain ⟨j, hj⟩ := (mem_pointers_iff s.store p).mp hmem
      rw [mem_pointers_iff]
      refine ⟨j, ?_⟩
      rw [hstore]
      simp only
      have hji : i ≠ j := by
        intro hij
        subst hij
        rcases hel with hem | ⟨f, hf, _, hr⟩
        · unfold ClockSweep.Empty at hem
          rw [hj] at hem
          exact absurd hem (by simp)
        · obtain ⟨p2, hp2, hpf⟩ := (frameAt_eq_some s.store i f).mp hf
          rw [hj] at hp2
          have hpp : p = p2 := by simpa using hp2
          subst hpp
          have := href p f hpf
          omega
      rw [List.getElem?_set_ne hji]; exact hj

theorem Session.LeaseInv_acquire [BEq K] (s : Session K V) (done : List Nat)
    (key : K) (h : s.LeaseInv done) :
    (s.step (.acquire key)).LeaseInv done := by
  obtain ⟨hwf, hdone, hissued, href, hinst⟩ := h
  have hwf2 := Session.step_WF s (.acquire key) hwf
  have hstore := Session.step_acquire_store s key
  have hptr : (s.step (.acquire key)).store.pointers = s.store.pointers := by
    unfold pointers; rw [hstore, Acquire_frames]
  have hlen : (s.step (.acquire key)).store.heap.length = s.store.heap.length := by
    rw [hstore, Acquire_heap_length]
  cases hrel : (s.store.Acquire key).2.release with
  | none =>
    have hiss : (s.step (.acquire key)).issued = s.issued := by
      simp only [Session.step, hrel]
    have hleases : ∀ p, (s.step (.acquire key)).leases done p = s.leases done p :=
      fun p => Session.leases_same_issued s _ done p hiss
    refine ⟨hwf2, ?_, ?_, ?_, ?_⟩
    · rw [hiss]; exact hdone
    · rw [hiss, hlen]; exact hissued
    · intro p f hf
      rw [hstore] at hf
      obtain ⟨f0, hf0, hle, _⟩ := heap_Acquire_refCnt s.store hwf key p f hf
      rw [hleases]
      exact le_trans (href p f0 hf0) hle
    · intro p hp
      rw [hleases] at hp
      rw [hptr]; exact hinst p hp
  | some q =>
    have hiss : (s.step (.acquire key)).issued = s.issued ++ [q] := by
      simp only [Session.step, hrel]
    obtain ⟨_, hq, g, hg, hgk⟩ := Acquire_release_some s.store key q hrel
    have hleases : ∀ p, (s.step (.acquire key)).leases done p
        = s.leases done p + (if q = p then 1 else 0) :=
      fun p => Session.leases_append_issued s _ done p q hiss hdone
    refine ⟨hwf2, ?_, ?_, ?_, ?_⟩
    · intro n hn
      rw [hiss, List.length_append, List.length_singleton]
      exact Nat.lt_succ_of_lt (hdone n hn)
    · intro x hx
      rw [hiss] at hx
      rw [hlen]
      rcases List.mem_append.mp hx with h1 | h1
      · exact hissued x h1
      · have : x = q := by simpa using h1
        rw [this]; exact hwf.1 q hq
    · intro p f hf
      rw [hstore] at hf
      obtain ⟨f0, hf0, hle, hinc⟩ := heap_Acquire_refCnt s.store hwf key p f hf
      rw [hleases]
      have hold := href p f0 hf0
      by_cases hqp : q = p
      · subst hqp
        rw [hg] at hf0
        have : g = f0 := Option.some.inj hf0
        subst this
        have := hinc hq hgk
        rw [if_pos rfl]
        push_cast
        omega
      · rw [if_neg hqp]
        simp only [Nat.add_zero]
        exact le_trans hold hle
    · intro p hp
      rw [hleases] at hp
      rw [hptr]
      by_cases hqp : q = p
      · subst hqp; exact hq
      · rw [if_neg hqp] at hp
        exact hinst p hp

theorem Session.LeaseInv_release [BEq K] (s : Session K V) (done : List Nat)
    (n : Nat) (h : s.LeaseInv done) (hnew : ∀ m ∈ s.invokes (.release n), m ∉ done) :
    (s.step (.release n)).LeaseInv (done ++ s.invokes (.release n)) := by
  obtain ⟨hwf, hdone, hissued, href, hinst⟩ := h
  cases hq : s.issued[n]? with
  | none =>
    have hge : ¬ n < s.issued.length := by
      intro hlt
      rw [List.getElem?_eq_getElem hlt] at hq
      exact absurd hq (by simp)
    have hst : s.step (.release n) = s := by
      simp only [Session.step, hq]
    have hinv : s.invokes (.release n) = [] := by
      simp only [Session.invokes, if_neg hge]
    rw [hst, hinv, List.append_nil]
    exact ⟨hwf, hdone, hissued, href, hinst⟩
  | some q =>
    have hlt : n < s.issued.length := (List.getElem?_eq_some.mp hq).1
    have hst : s.step (.release n) = ⟨s.store.release q, s.issued⟩ := by
      simp only [Session.step, hq]
    have hinv : s.invokes (.release n) = [n] := by
      simp only [Session.invokes, if_pos hlt]
    have hn : n ∉ done := hnew n (by rw [hinv]; exact List.mem_singleton_self n)
    rw [hst, hinv]
    have hleases : ∀ p, (⟨s.store.release q, s.issued⟩ : Session K V).leases (done ++ [n]) p
          + (if q = p then 1 else 0) = s.leases done p :=
      fun p => Session.leases_invoke s done n p q hq hn
    refine ⟨WF_release s.store hwf q, ?_, ?_, ?_, ?_⟩
    · intro m hm
      rcases List.mem_append.mp hm with h1 | h1
      · exact hdone m h1
      · have : m = n := by simpa using h1
        rw [this]; exact hlt
    · intro x hx
      show x < (s.store.release q).heap.length
      rw [release_heap_length]; exact hissued x hx
    · intro p f hf
      have hf2 : (s.store.release q).heap[p]? = some f := hf
      rw [release_heap] at hf2
      have hl := hleases p
      by_cases hqp : q = p
      · subst hqp
        rw [if_pos rfl] at hf2 hl
        cases h0 : s.store.heap[q]? with
        | none => rw [h0] at hf2; simp at hf2
        | some f0 =>
          rw [h0] at hf2
          have hfe : (⟨f0.cnt, f0.refCnt - 1, f0.key, f0.value⟩ : Frame K V) = f := by
            simpa using hf2
          have hold := href q f0 h0
          rw [← hfe]
          show ((Session.leases ⟨s.store.release q, s.issued⟩ (done ++ [n]) q : Nat) : Int)
            ≤ f0.refCnt - 1
          omega
      · rw [if_neg (fun h => hqp h.symm)] at hf2
        rw [if_neg hqp] at hl
        have hold := href p f hf2
        omega
    · intro p hp
      show p ∈ (s.store.release q).pointers
      unfold pointers
      rw [release_frames]
      have hl := hleases p
      exact hinst p (by omega)

theorem Session.LeaseInv_step [BEq K] (s : Session K V) (done : List Nat)
    (call : Call K V) (h : s.LeaseInv done) (hnew : ∀ m ∈ s.invokes call, m ∉ done) :
    (s.step call).LeaseInv (done ++ s.invokes call) := by
  cases call with
  | set key value =>
    have : s.invokes (.set key value) = [] := rfl
    rw [this, List.append_nil]
    exact Session.LeaseInv_set s done key value h
  | acquire key =>
    have : s.invokes (.acquire key) = [] := rfl
    rw [this, List.append_nil]
    exact Session.LeaseInv_acquire s done key h
  | release n => exact Session.LeaseInv_release s done n h hnew

/-- Correct use keeps the invariant along a whole sequence of calls. -/
theorem Session.LeaseInv_run [BEq K] (calls : List (Call K V)) :
    ∀ (s : Session K V) (done : List Nat), s.LeaseInv done →
      (done ++ s.invoked calls).Nodup →
      (s.run calls).LeaseInv (done ++ s.invoked calls) := by
  induction calls with
  | nil =>
    intro s done h _
    simpa [Session.invoked, Session.run] using h
  | cons call rest ih =>
    intro s done h hnd
    have hinv : s.invoked (call :: rest) = s.invokes call ++ (s.step call).invoked rest := rfl
    rw [hinv, ← List.append_assoc] at hnd ⊢
    have hnd1 : (done ++ s.invokes call).Nodup := (List.nodup_append.mp hnd).1
    have hnew : ∀ m ∈ s.invokes call, m ∉ done := by
      intro m hm hmd
      exact (List.nodup_append.mp hnd1).2.2 hmd hm
    exact ih (s.step call) (done ++ s.invokes call) (Session.LeaseInv_step s done call h hnew) hnd

theorem Session.LeaseInv_init [BEq K] (capacity : Int) (c0 : ClockSweep K V)
    (h0 : NewClockSweep K V capacity = some c0) :
    (⟨c0, []⟩ : Session K V).LeaseInv [] := by
  have hwf := WF_NewClockSweep capacity c0 h0
  obtain ⟨_, rfl⟩ := NewClockSweep_some K V capacity c0 h0
  refine ⟨hwf, by simp, by simp, ?_, ?_⟩
  · intro p f hf
    simp at hf
  · intro p hp
    simp [Session.leases] at hp

/-- Under correct use from `NewClockSweep(capacity)` the invariant holds after every
sequence of calls. -/
theorem Session.LeaseInv_of_correct [BEq K] (capacity : Int) (c0 : ClockSweep K V)
    (calls : List (Call K V)) (h0 : NewClockSweep K V capacity = some c0)
    (honce : Session.OnceEach ⟨c0, []⟩ calls) :
    (Session.run ⟨c0, []⟩ calls).LeaseInv (Session.invoked ⟨c0, []⟩ calls) := by
  have h := Session.LeaseInv_run calls ⟨c0, []⟩ [] (Session.LeaseInv_init capacity c0 h0)
    (by simpa using honce)
  simpa using h

/-! ## Leases and `refCnt` under correct use -/

/-- C11, the failing input evaluated: after `NewClockSweep(2)`, `Set(1, "a")`,
`Set(1, "b")` and `Acquire(1)`, with no release action invoked, the only release
closure handed out captured the frame at position 1, no lease is outstanding on the
frame at position 0, and that frame has `refCnt = 1`. -/
theorem refCnt_exceeds_leases_on_duplicate :
    NewClockSweep Nat String 2 = some emptyTwo ∧
    Session.OnceEach ⟨emptyTwo, []⟩ [.set 1 "a", .set 1 "b", .acquire 1] ∧
    (Session.run ⟨emptyTwo, []⟩ [.set 1 "a", .set 1 "b", .acquire 1]).store
      = ⟨[⟨2, 1, 1, "a"⟩, ⟨2, 1, 1, "b"⟩], [some 0, some 1]⟩ ∧
    (Session.run ⟨emptyTwo, []⟩ [.set 1 "a", .set 1 "b", .acquire 1]).issued = [1] ∧
    (Session.run ⟨emptyTwo, []⟩ [.set 1 "a", .set 1 "b", .acquire 1]).leases
      (Session.invoked ⟨emptyTwo, []⟩ [.set 1 "a", .set 1 "b", .acquire 1]) 0 = 0 ∧
    (Session.run ⟨emptyTwo, []⟩ [.set 1 "a", .set 1 "b", .acquire 1]).leases
      (Session.invoked ⟨emptyTwo, []⟩ [.set 1 "a", .set 1 "b", .acquire 1]) 1 = 1 := by
  decide

/-- C12: after every sequence of `Set`, `Acquire` and release calls from
`NewClockSweep(capacity)` in which no release action is invoked twice, every allocated
frame has `refCnt >= 0`: the frames at the positions of the store, and the frames
captured by the release closures handed out, which are all still allocated. -/
theorem refCnt_nonneg [BEq K] (capacity : Int) (c0 : ClockSweep K V)
    (calls : List (Call K V)) (h0 : NewClockSweep K V capacity = some c0)
    (honce : Session.OnceEach ⟨c0, []⟩ calls) :
    (∀ (p : Nat) (f : Frame K V),
      (Session.run ⟨c0, []⟩ calls).store.heap[p]? = some f → 0 ≤ f.refCnt) ∧
    (∀ (i : Nat) (f : Frame K V),
      (Session.run ⟨c0, []⟩ calls).store.frameAt i = some f → 0 ≤ f.refCnt) ∧
    (∀ n p : Nat, (Session.run ⟨c0, []⟩ calls).issued[n]? = some p →
      ∃ f, (Session.run ⟨c0, []⟩ calls).store.heap[p]? = some f ∧ 0 ≤ f.refCnt) := by
  obtain ⟨_, _, hissued, href, _⟩ := Session.LeaseInv_of_correct capacity c0 calls h0 honce
  have hheap : ∀ (p : Nat) (f : Frame K V),
      (Session.run ⟨c0, []⟩ calls).store.heap[p]? = some f → 0 ≤ f.refCnt := by
    intro p f hf
    have := href p f hf
    omega
  refine ⟨hheap, ?_, ?_⟩
  · intro i f hf
    obtain ⟨p, _, hpf⟩ := (frameAt_eq_some _ i f).mp hf
    exact hheap p f hpf
  · intro n p hn
    have hlt := hissued p (List.mem_iff_getElem?.mpr ⟨n, hn⟩)
    exact ⟨_, List.getElem?_eq_getElem hlt, hheap p _ (List.getElem?_eq_getElem hlt)⟩

/-- C12 on the calls of the package test, where each of the two release closures is
invoked once: the frame of key 1 ends with `refCnt = 0`. -/
theorem refCnt_nonneg_witness :
    (Session.run ⟨emptyTwo, []⟩
      [.set 1 "one", .acquire 1, .release 0, .acquire 2, .set 2 "two", .acquire 1,
        .set 3 "three", .release 1]).store.frameAt 0 = some ⟨2, 0, 1, "one"⟩ ∧
    (0 : Int) ≤ (⟨2, 0, 1, "one"⟩ : Frame Nat String).refCnt :=
  ⟨by decide,
   (refCnt_nonneg 2 emptyTwo
      [.set 1 "one", .acquire 1, .release 0, .acquire 2, .set 2 "two", .acquire 1,
        .set 3 "three", .release 1] (by decide) (by decide)).2.1 0 ⟨2, 0, 1, "one"⟩
      (by decide)⟩

/-- One call lowers the `cnt` of a frame by at most one, and only an `Acquire` does;
a frame allocated by the call has `cnt = 1`. -/
theorem Session.cnt_step [BEq K] (s : Session K V) (call : Call K V) (B : Int)
    (hwf : s.store.WF) (hB : B ≤ 1)
    (h : ∀ (p : Nat) (f : Frame K V), s.store.heap[p]? = some f → B ≤ f.cnt) :
    ∀ (p : Nat) (f : Frame K V), (s.step call).store.heap[p]? = some f →
      B - (acquireCount [call] : Int) ≤ f.cnt := by
  intro p f hf
  cases call with
  | set key value =>
    have hf2 : (s.store.Set key value).1.heap[p]? = some f := hf
    simp only [acquireCount, Nat.cast_zero, sub_zero]
    rcases evict_cases s.store with ⟨he, _⟩ | ⟨i, he, _, _⟩
    · rw [Set_of_evict_false s.store key value _ he] at hf2
      exact h p f hf2
    · rw [Set_of_evict_true s.store key value i he] at hf2
      simp only at hf2
      by_cases hlt : p < s.store.heap.length
      · rw [List.getElem?_append_left hlt] at hf2; exact h p f hf2
      · by_cases heq : p = s.store.heap.length
        · subst heq
          have : (⟨1, 0, key, value⟩ : Frame K V) = f := by simpa using hf2
          rw [← this]; exact hB
        · rw [List.getElem?_eq_none (by
            simp only [List.length_append, List.length_singleton]; omega)] at hf2
          exact absurd hf2 (by simp)
  | acquire key =>
    rw [Session.step_acquire_store, heap_Acquire s.store hwf key p] at hf
    simp only [acquireCount, zero_add, Nat.cast_one]
    cases h0 : s.store.heap[p]? with
    | none => rw [h0] at hf; simp at hf
    | some f0 =>
      rw [h0] at hf
      have hold := h p f0 h0
      have hcnt : f0.cnt - 1 ≤ (touch key f0).cnt := by
        unfold touch
        split
        · show f0.cnt - 1 ≤ f0.cnt + 1
          omega
        · exact le_refl _
      by_cases hp : p ∈ s.store.pointers
      · rw [if_pos hp] at hf
        have : touch key f0 = f := by simpa using hf
        rw [← this]; omega
      · rw [if_neg hp] at hf
        have : f0 = f := by simpa using hf
        rw [← this]; omega
  | release n =>
    rw [Session.step_release_store] at hf
    simp only [acquireCount, Nat.cast_zero, sub_zero]
    cases hq : s.issued[n]? with
    | none => rw [hq] at hf; exact h p f hf
    | some q =>
      rw [hq] at hf
      simp only at hf
      rw [release_heap] at hf
      by_cases hpq : p = q
      · rw [if_pos hpq] at hf
        cases h0 : s.store.heap[q]? with
        | none => rw [h0] at hf; simp at hf
        | some f0 =>
          rw [h0] at hf
          have : (⟨f0.cnt, f0.refCnt - 1, f0.key, f0.value⟩ : Frame K V) = f := by
            simpa using hf
          rw [← this]; exact h q f0 h0
      · rw [if_neg hpq] at hf; exact h p f hf

theorem Session.cnt_run [BEq K] (calls : List (Call K V)) :
    ∀ (s : Session K V) (B : Int), s.store.WF → B ≤ 1 →
      (∀ (p : Nat) (f : Frame K V), s.store.heap[p]? = some f → B ≤ f.cnt) →
      ∀ (p : Nat) (f : Frame K V), (s.run calls).store.heap[p]? = some f →
        B - (acquireCount calls : Int) ≤ f.cnt := by
  induction calls with
  | nil =>
    intro s B _ _ h p f hf
    simpa [acquireCount] using h p f hf
  | cons call rest ih =>
    intro s B hwf hB h p f hf
    have hstep := Session.cnt_step s call B hwf hB h
    have hcount : (acquireCount (call :: rest) : Int)
        = (acquireCount [call] : Int) + (acquireCount rest : Int) := by
      cases call with
      | set key value => simp [acquireCount]
      | acquire key => simp [acquireCount]; omega
      | release n => simp [acquireCount]
    have := ih (s.step call) (B - (acquireCount [call] : Int)) (Session.step_WF s call hwf)
      (by omega) hstep p f hf
    omega

/-- C13, counterexample: after `NewClockSweep(2)`, `Set(1, "one")` and a missed
`Acquire(9)`, with no release action invoked at all, the occupied position 0 has
`cnt = 0`, which is not `>= 1`. -/
theorem lifecycle_invariant_counterexample :
    NewClockSweep Nat String 2 = some emptyTwo ∧
    Session.OnceEach ⟨emptyTwo, []⟩ [.set 1 "one", .acquire 9] ∧
    (Session.run ⟨emptyTwo, []⟩ [.set 1 "one", .acquire 9]).store.frameAt 0
      = some ⟨0, 0, 1, "one"⟩ ∧
    ¬ ((1 : Int) ≤ (⟨0, 0, 1, "one"⟩ : Frame Nat String).cnt) := by
  decide

/-- C13, amended: after every sequence of calls from `NewClockSweep(capacity)` in which
no release action is invoked twice, every occupied position has `refCnt >= 0` and a `cnt`
of at least 1 minus the number of `Acquire` calls made. -/
theorem lifecycle_invariant [BEq K] (capacity : Int) (c0 : ClockSweep K V)
    (calls : List (Call K V)) (h0 : NewClockSweep K V capacity = some c0)
    (honce : Session.OnceEach ⟨c0, []⟩ calls) (i : Nat) (f : Frame K V)
    (hf : (Session.run ⟨c0, []⟩ calls).store.frameAt i = some f) :
    0 ≤ f.refCnt ∧ 1 - (acquireCount calls : Int) ≤ f.cnt := by
  obtain ⟨p, _, hpf⟩ := (frameAt_eq_some _ i f).mp hf
  obtain ⟨_, _, _, href, _⟩ := Session.LeaseInv_of_correct capacity c0 calls h0 honce
  refine ⟨by have := href p f hpf; omega, ?_⟩
  have hwf := WF_NewClockSweep capacity c0 h0
  obtain ⟨_, hc0⟩ := NewClockSweep_some K V capacity c0 h0
  refine Session.cnt_run calls ⟨c0, []⟩ 1 hwf (le_refl _) ?_ p f hpf
  intro q g hg
  rw [hc0] at hg
  simp at hg

/-- C13, amended, on the aged store: one `Acquire` was made and position 0 holds
`cnt = 0 >= 1 - 1`, `refCnt = 0`. -/
theorem lifecycle_invariant_witness :
    (Session.run ⟨emptyTwo, []⟩ [.set 1 "one", .acquire 9]).store.frameAt 0
      = some ⟨0, 0, 1, "one"⟩ ∧
    (0 : Int) ≤ (⟨0, 0, 1, "one"⟩ : Frame Nat String).refCnt ∧
    1 - (acquireCount [(.set 1 "one" : Call Nat String), .acquire 9] : Int)
      ≤ (⟨0, 0, 1, "one"⟩ : Frame Nat String).cnt :=
  ⟨by decide,
   lifecycle_invariant 2 emptyTwo [.set 1 "one", .acquire 9] (by decide) (by decide) 0
     ⟨0, 0, 1, "one"⟩ (by decide)⟩

/-- C14, counterexample: after `NewClockSweep(2)`, `Set(1, "one")`, `Set(2, "two")`,
`Acquire(1)` and its release, `Acquire(2)` does not fail: its error is nil. -/
theorem spec_example_counterexample :
    NewClockSweep Nat String 2 = some emptyTwo ∧
    ((Session.run ⟨emptyTwo, []⟩
      [.set 1 "one", .set 2 "two", .acquire 1, .release 0]).store.Acquire 2).2.err = none ∧
    ((Session.run ⟨emptyTwo, []⟩
      [.set 1 "one", .set 2 "two", .acquire 1, .release 0]).store.Acquire 2).2.err
        ≠ some Error.ErrKeyNotFound := by
  decide

/-- C14, amended: in that state position 1 still holds key 2 with `cnt = 0` and
`refCnt = 0`, and `Acquire(2)` succeeds, returns "two" and leaves the frame with
`cnt = 1`, `refCnt = 1`; once `Set(3, "three")` has overwritten position 1, `Acquire(2)`
fails with `ErrKeyNotFound`. -/
theorem spec_example :
    (Session.run ⟨emptyTwo, []⟩
      [.set 1 "one", .set 2 "two", .acquire 1, .release 0]).store
      = ⟨[⟨2, 0, 1, "one"⟩, ⟨0, 0, 2, "two"⟩], [some 0, some 1]⟩ ∧
    ((Session.run ⟨emptyTwo, []⟩
      [.set 1 "one", .set 2 "two", .acquire 1, .release 0]).store.Acquire 2).2
      = ⟨some 1, some 1, none⟩ ∧
    ((Session.run ⟨emptyTwo, []⟩
      [.set 1 "one", .set 2 "two", .acquire 1, .release 0]).store.Acquire 2).1.deref (some 1)
      = some "two" ∧
    ((Session.run ⟨emptyTwo, []⟩
      [.set 1 "one", .set 2 "two", .acquire 1, .release 0]).store.Acquire 2).1.frameAt 1
      = some ⟨1, 1, 2, "two"⟩ ∧
    (Session.run ⟨emptyTwo, []⟩
      [.set 1 "one", .set 2 "two", .acquire 1, .release 0, .set 3 "three"]).store.frameAt 1
      = some ⟨1, 0, 3, "three"⟩ ∧
    ((Session.run ⟨emptyTwo, []⟩
      [.set 1 "one", .set 2 "two", .acquire 1, .release 0, .set 3 "three"]).store.Acquire
        2).2 = ⟨none, none, some Error.ErrKeyNotFound⟩ := by
  decide

/-! ## Repeated acquisition -/

theorem evict_true_frame (c : ClockSweep K V) (i : Nat) (g : Frame K V)
    (he : c.evict = (i, true)) (hf : c.frameAt i = some g) : g.cnt = 0 ∧ g.refCnt = 0 := by
  rcases (evict_true c i he).1 with hem | ⟨f, hf2, h0, h1⟩
  · obtain ⟨p, hp, _⟩ := (frameAt_eq_some c i g).mp hf
    unfold ClockSweep.Empty at hem
    rw [hp] at hem
    exact absurd hem (by simp)
  · rw [hf] at hf2
    have : g = f := Option.some.inj hf2
    subst this
    exact ⟨h0, h1⟩

/-- A position that `evict` does not select keeps its pointer and its frame through
`Set`. -/
theorem Set_keeps_frame (c : ClockSweep K V) (hwf : c.WF) (key : K) (value : V) (i : Nat)
    (hne : c.evict ≠ (i, true)) :
    (c.Set key value).1.frames[i]? = c.frames[i]? ∧
    (c.Set key value).1.frameAt i = c.frameAt i := by
  rcases evict_cases c with ⟨he, _⟩ | ⟨k, he, _, _⟩
  · rw [Set_of_evict_false c key value _ he]
    exact ⟨rfl, rfl⟩
  · have hki : k ≠ i := fun hk => hne (by rw [he, hk])
    refine ⟨?_, ?_⟩
    · rw [Set_of_evict_true c key value k he]
      exact List.getElem?_set_ne hki
    · rw [frameAt_Set c hwf key value k he i, if_neg (fun h => hki h.symm)]

/-- When exactly one position holds the key, the scan of `Acquire` ends on its frame. -/
theorem lastMatch_unique [BEq K] (c : ClockSweep K V) (key : K) (i p : Nat)
    (f : Frame K V) (hi : c.frames[i]? = some (some p)) (hf : c.heap[p]? = some f)
    (hk : (f.key == key) = true) (hu : ∀ j g, c.frameAt j = some g → (g.key == key) = true → j = i) :
    lastMatch key c.heap c.frames none = some p := by
  cases hl : lastMatch key c.heap c.frames none with
  | none =>
    have h := (lastMatch_eq_none_iff key c.heap c.frames).mp hl p
      ((mem_pointers_iff c p).mpr ⟨i, hi⟩) f hf
    exact absurd hk h
  | some q =>
    rcases lastMatch_some key c.heap c.frames none q hl with h1 | ⟨hq, g, hg, hgk⟩
    · exact absurd h1 (by simp)
    · obtain ⟨j, hj⟩ := (mem_pointers_iff c q).mp hq
      have hji : j = i := hu j g ((frameAt_eq_some c j g).mpr ⟨q, hj, hg⟩) hgk
      subst hji
      rw [hi] at hj
      have : p = q := by simpa using hj
      rw [this]

/-- The store after `t` calls `Acquire(key)` when position `i` holds the key: the same
slice, the same keys in the heap, and the frame at `i` with both counters `t` higher. -/
theorem acquireN_inv [BEq K] (c : ClockSweep K V) (hwf : c.WF) (key : K)
    (i p : Nat) (f : Frame K V) (hi : c.frames[i]? = some (some p))
    (hf : c.heap[p]? = some f) (hk : (f.key == key) = true) :
    ∀ t : Nat, (c.acquireN key t).WF ∧ (c.acquireN key t).frames = c.frames ∧
      (∀ q : Nat, ((c.acquireN key t).heap[q]?).map Frame.key = (c.heap[q]?).map Frame.key) ∧
      (c.acquireN key t).heap[p]? = some ⟨f.cnt + t, f.refCnt + t, f.key, f.value⟩ := by
  intro t
  induction t with
  | zero =>
    refine ⟨hwf, rfl, fun q => rfl, ?_⟩
    show c.heap[p]? = _
    rw [hf]; simp
  | succ t ih =>
    obtain ⟨hwft, hfr, hkeys, hp⟩ := ih
    have hmem : p ∈ (c.acquireN key t).pointers :=
      (mem_pointers_iff _ p).mpr ⟨i, by rw [hfr]; exact hi⟩
    refine ⟨WF_Acquire _ hwft key, ?_, ?_, ?_⟩
    · show ((c.acquireN key t).Acquire key).1.frames = c.frames
      rw [Acquire_frames, hfr]
    · intro q
      show (((c.acquireN key t).Acquire key).1.heap[q]?).map Frame.key = _
      rw [heap_Acquire _ hwft key q, ← hkeys q]
      split
      · cases (c.acquireN key t).heap[q]? with
        | none => rfl
        | some g => simp [touch_key]
      · rfl
    · show ((c.acquireN key t).Acquire key).1.heap[p]? = _
      rw [heap_Acquire _ hwft key p, if_pos hmem, hp]
      simp only [Option.map_some', touch, hk, if_true]
      congr 2
      · push_cast; ring
      · push_cast; ring

/-- The store after `m` invocations of release closures that captured `p`. -/
theorem releaseN_inv (c : ClockSweep K V) (hwf : c.WF) (p : Nat) (f : Frame K V)
    (hf : c.heap[p]? = some f) :
    ∀ m : Nat, (c.releaseN p m).WF ∧ (c.releaseN p m).frames = c.frames ∧
      (c.releaseN p m).heap[p]? = some ⟨f.cnt, f.refCnt - m, f.key, f.value⟩ := by
  intro m
  induction m with
  | zero =>
    refine ⟨hwf, rfl, ?_⟩
    show c.heap[p]? = _
    rw [hf]; simp
  | succ m ih =>
    obtain ⟨hwfm, hfr, hp⟩ := ih
    refine ⟨WF_release _ hwfm p, ?_, ?_⟩
    · show ((c.releaseN p m).release p).frames = c.frames
      rw [release_frames, hfr]
    · show ((c.releaseN p m).release p).heap[p]? = _
      rw [release_heap, if_pos rfl, hp]
      simp only [Option.map_some']
      congr 2
      push_cast; ring

/-- C15, counterexample: a store of capacity 1 whose only frame holds key 1 with
`cnt = -2` and `refCnt = -1` (reached by invoking one release action twice): two
`Acquire(1)` succeed, and after one of the two release actions `evict` selects
position 0 and `Set` overwrites it. -/
theorem repeated_acquire_counterexample :
    NewClockSweep Nat String 1 = some emptyOne ∧
    overReleasedStore = ⟨[⟨-2, -1, 1, "one"⟩], [some 0]⟩ ∧
    ((overReleasedStore.acquireN 1 0).Acquire 1).2 = ⟨some 0, some 0, none⟩ ∧
    ((overReleasedStore.acquireN 1 1).Acquire 1).2 = ⟨some 0, some 0, none⟩ ∧
    (overReleasedStore.acquireN 1 2).frameAt 0 = some ⟨0, 1, 1, "one"⟩ ∧
    ((overReleasedStore.acquireN 1 2).releaseN 0 1).frameAt 0 = some ⟨0, 0, 1, "one"⟩ ∧
    ((overReleasedStore.acquireN 1 2).releaseN 0 1).evict = (0, true) ∧
    (((overReleasedStore.acquireN 1 2).releaseN 0 1).Set 2 "two").1.frameAt 0
      = some ⟨1, 0, 2, "two"⟩ := by
  decide

/-- C15, amended: in a well-formed store where position `i` is the only one holding
key `k` and its frame has `refCnt >= 0`, each of `n` consecutive `Acquire(k)` succeeds
and returns that frame, after them the frame has `cnt` and `refCnt` higher by `n`, and
after any `m < n` of the release actions `evict` does not select position `i` and `Set`
leaves its pointer and its frame in place. -/
theorem repeated_acquire [BEq K] (c : ClockSweep K V) (hwf : c.WF) (key : K)
    (i : Nat) (f : Frame K V) (hfa : c.frameAt i = some f) (hk : (f.key == key) = true)
    (hu : ∀ j g, c.frameAt j = some g → (g.key == key) = true → j = i) (hr : 0 ≤ f.refCnt)
    (n : Nat) :
    ∃ p : Nat, c.frames[i]? = some (some p) ∧
      (∀ t, t < n → ((c.acquireN key t).Acquire key).2 = ⟨some p, some p, none⟩) ∧
      (c.acquireN key n).frameAt i = some ⟨f.cnt + n, f.refCnt + n, f.key, f.value⟩ ∧
      (∀ m, m < n →
        ((c.acquireN key n).releaseN p m).frameAt i
          = some ⟨f.cnt + n, f.refCnt + n - m, f.key, f.value⟩ ∧
        ((c.acquireN key n).releaseN p m).evict ≠ (i, true) ∧
        ∀ (k2 : K) (v2 : V),
          (((c.acquireN key n).releaseN p m).Set k2 v2).1.frames[i]? = some (some p) ∧
          (((c.acquireN key n).releaseN p m).Set k2 v2).1.frameAt i
            = some ⟨f.cnt + n, f.refCnt + n - m, f.key, f.value⟩) := by
  obtain ⟨p, hi, hf⟩ := (frameAt_eq_some c i f).mp hfa
  have hinv := acquireN_inv c hwf key i p f hi hf hk
  refine ⟨p, hi, ?_, ?_, ?_⟩
  · intro t _
    obtain ⟨_, hfr, hkeys, _⟩ := hinv t
    rw [Acquire_result, hfr, lastMatch_congr key _ c.heap hkeys,
      lastMatch_unique c key i p f hi hf hk hu]
  · obtain ⟨_, hfr, _, hp⟩ := hinv n
    rw [frameAt_eq_some]
    exact ⟨p, by rw [hfr]; exact hi, hp⟩
  · intro m hm
    obtain ⟨hwfn, hfr, _, hp⟩ := hinv n
    obtain ⟨hwfm, hfrm, hpm⟩ := releaseN_inv (c.acquireN key n) hwfn p _ hp m
    simp only at hpm
    have hpos : ((c.acquireN key n).releaseN p m).frames[i]? = some (some p) := by
      rw [hfrm, hfr]; exact hi
    have hframe : ((c.acquireN key n).releaseN p m).frameAt i
        = some ⟨f.cnt + n, f.refCnt + n - m, f.key, f.value⟩ :=
      (frameAt_eq_some _ i _).mpr ⟨p, hpos, hpm⟩
    have hne : ((c.acquireN key n).releaseN p m).evict ≠ (i, true) := by
      intro he
      have h0 := (evict_true_frame _ i _ he hframe).2
      simp only at h0
      omega
    refine ⟨hframe, hne, ?_⟩
    intro k2 v2
    obtain ⟨h1, h2⟩ := Set_keeps_frame _ hwfm k2 v2 i hne
    exact ⟨by rw [h1]; exact hpos, by rw [h2]; exact hframe⟩

/-- C15, amended, on the store of the package test after `Set(2, "two")`: two
`Acquire(1)` pin position 0 twice, and after one release `Set(3, "three")` still leaves
it in place. -/
theorem repeated_acquire_witness :
    ∃ p : Nat,
      (⟨[⟨1, 0, 1, "one"⟩, ⟨1, 0, 2, "two"⟩], [some 0, some 1]⟩ :
        ClockSweep Nat String).frames[0]? = some (some p) ∧
      (∀ t, t < 2 →
        (((⟨[⟨1, 0, 1, "one"⟩, ⟨1, 0, 2, "two"⟩], [some 0, some 1]⟩ :
          ClockSweep Nat String).acquireN 1 t).Acquire 1).2 = ⟨some p, some p, none⟩) ∧
      ((⟨[⟨1, 0, 1, "one"⟩, ⟨1, 0, 2, "two"⟩], [some 0, some 1]⟩ :
          ClockSweep Nat String).acquireN 1 2).frameAt 0
        = some ⟨(1 : Int) + (2 : Nat), (0 : Int) + (2 : Nat), 1, "one"⟩ ∧
      (∀ m, m < 2 →
        (((⟨[⟨1, 0, 1, "one"⟩, ⟨1, 0, 2, "two"⟩], [some 0, some 1]⟩ :
          ClockSweep Nat String).acquireN 1 2).releaseN p m).frameAt 0
          = some ⟨(1 : Int) + (2 : Nat), (0 : Int) + (2 : Nat) - m, 1, "one"⟩ ∧
        (((⟨[⟨1, 0, 1, "one"⟩, ⟨1, 0, 2, "two"⟩], [some 0, some 1]⟩ :
          ClockSweep Nat String).acquireN 1 2).releaseN p m).evict ≠ (0, true) ∧
        ∀ (k2 : Nat) (v2 : String),
          ((((⟨[⟨1, 0, 1, "one"⟩, ⟨1, 0, 2, "two"⟩], [some 0, some 1]⟩ :
            ClockSweep Nat String).acquireN 1 2).releaseN p m).Set k2 v2).1.frames[0]?
            = some (some p) ∧
          ((((⟨[⟨1, 0, 1, "one"⟩, ⟨1, 0, 2, "two"⟩], [some 0, some 1]⟩ :
            ClockSweep Nat String).acquireN 1 2).releaseN p m).Set k2 v2).1.frameAt 0
            = some ⟨(1 : Int) + (2 : Nat), (0 : Int) + (2 : Nat) - m, 1, "one"⟩) :=
  repeated_acquire
    (⟨[⟨1, 0, 1, "one"⟩, ⟨1, 0, 2, "two"⟩], [some 0, some 1]⟩ : ClockSweep Nat String)
    (by decide) 1 0 ⟨1, 0, 1, "one"⟩ (by decide) (by decide)
    (by
      intro j g hg hgk
      match j, hg with
      | 0, _ => rfl
      | 1, hg =>
        have : g = ⟨1, 0, 2, "two"⟩ := by simpa [frameAt] using hg.symm
        subst this
        exact absurd hgk (by decide)
      | (j + 2), hg => simp [frameAt] at hg)
    (by decide) 2

/-! ## Duplicate keys -/

/-- C16: for every capacity `C >= 2`, key `k` and values `v1`, `v2`, on the store of
`NewClockSweep(C)` the calls `Set(k, v1)` and `Set(k, v2)` both succeed and leave
positions 0 and 1 both holding key `k`, with values `v1` and `v2`. -/
theorem Set_no_dedup (C : Int) (hC : 2 ≤ C) (k : K) (v1 v2 : V) :
    ∃ c0 : ClockSweep K V, NewClockSweep K V C = some c0 ∧
      (c0.Set k v1).2 = none ∧ ((c0.Set k v1).1.Set k v2).2 = none ∧
      ((c0.Set k v1).1.Set k v2).1.frameAt 0 = some ⟨1, 0, k, v1⟩ ∧
      ((c0.Set k v1).1.Set k v2).1.frameAt 1 = some ⟨1, 0, k, v2⟩ := by
  obtain ⟨m, hm⟩ : ∃ m : Nat, C.toNat = m + 2 := ⟨C.toNat - 2, by omega⟩
  refine ⟨⟨[], List.replicate C.toNat none⟩, NewClockSweep_eq K V C (by omega), ?_⟩
  rw [hm]
  simp [List.replicate_succ, ClockSweep.Set, evict, evictLoop, frameAt]

/-- C16 at capacity 2 with key 1 and the values "a" and "b". -/
theorem Set_no_dedup_witness :
    ∃ c0 : ClockSweep Nat String, NewClockSweep Nat String 2 = some c0 ∧
      (c0.Set 1 "a").2 = none ∧ ((c0.Set 1 "a").1.Set 1 "b").2 = none ∧
      ((c0.Set 1 "a").1.Set 1 "b").1.frameAt 0 = some ⟨1, 0, 1, "a"⟩ ∧
      ((c0.Set 1 "a").1.Set 1 "b").1.frameAt 1 = some ⟨1, 0, 1, "b"⟩ :=
  Set_no_dedup 2 (by decide) 1 "a" "b"

/-- The frame the scan ends on is the last one, in index order, that holds the key. -/
theorem lastMatch_last [BEq K] (key : K) (heap : List (Frame K V))
    (ps : List (Option Nat)) :
    ∀ (frame : Option Nat) (p : Nat), lastMatch key heap ps frame = some p →
      (frame = some p ∧
        ∀ (j q : Nat) (g : Frame K V), ps[j]? = some (some q) → heap[q]? = some g →
          (g.key == key) ≠ true) ∨
      (∃ i : Nat, ps[i]? = some (some p) ∧ (∃ f, heap[p]? = some f ∧ (f.key == key) = true) ∧
        ∀ (j q : Nat) (g : Frame K V), i < j → ps[j]? = some (some q) → heap[q]? = some g →
          (g.key == key) ≠ true) := by
  induction ps with
  | nil =>
    intro frame p h
    left
    exact ⟨h, fun j q g hj => by simp at hj⟩
  | cons o rest ih =>
    intro frame p h
    -- what the induction hypothesis gives for the tail, shifted by one position
    have shift : ∀ fr : Option Nat, lastMatch key heap rest fr = some p →
        (fr = some p ∧
          ∀ (j q : Nat) (g : Frame K V), (o :: rest)[j + 1]? = some (some q) →
            heap[q]? = some g → (g.key == key) ≠ true) ∨
        (∃ i : Nat, (o :: rest)[i]? = some (some p) ∧
          (∃ f, heap[p]? = some f ∧ (f.key == key) = true) ∧
          ∀ (j q : Nat) (g : Frame K V), i < j → (o :: rest)[j]? = some (some q) →
            heap[q]? = some g → (g.key == key) ≠ true) := by
      intro fr hfr
      rcases ih fr p hfr with ⟨h1, h2⟩ | ⟨i, hi, hm, hafter⟩
      · left
        exact ⟨h1, fun j q g hj => h2 j q g (by simpa using hj)⟩
      · right
        refine ⟨i + 1, by simpa using hi, hm, ?_⟩
        intro j q g hij hj
        cases j with
        | zero => omega
        | succ j => exact hafter j q g (by omega) (by simpa using hj)
    cases o with
    | none =>
      rcases shift frame (by simpa [lastMatch] using h) with ⟨h1, h2⟩ | hright
      · left
        refine ⟨h1, ?_⟩
        intro j q g hj
        cases j with
        | zero => simp at hj
        | succ j => exact h2 j q g hj
      · exact Or.inr hright
    | some r =>
      cases hr : heap[r]? with
      | none =>
        rcases shift frame (by simpa [lastMatch, hr] using h) with ⟨h1, h2⟩ | hright
        · left
          refine ⟨h1, ?_⟩
          intro j q g hj hg
          cases j with
          | zero =>
            have : r = q := by simpa using hj
            subst this
            rw [hr] at hg
            exact absurd hg (by simp)
          | succ j => exact h2 j q g hj hg
        · exact Or.inr hright
      | some f0 =>
        by_cases hk : (f0.key == key) = true
        · rcases shift (some r) (by simpa [lastMatch, hr, hk] using h) with ⟨h1, h2⟩ | hright
          · right
            have hrp : r = p := Option.some.inj h1
            subst hrp
            refine ⟨0, by simp, ⟨f0, hr, hk⟩, ?_⟩
            intro j q g hj hq
            cases j with
            | zero => omega
            | succ j => exact h2 j q g hq
          · exact Or.inr hright
        · rcases shift frame (by simpa [lastMatch, hr, hk] using h) with ⟨h1, h2⟩ | hright
          · left
            refine ⟨h1, ?_⟩
            intro j q g hj hg
            cases j with
            | zero =>
              have : r = q := by simpa using hj
              subst this
              rw [hr] at hg
              have : f0 = g := Option.some.inj hg
              subst this
              exact hk
            | succ j => exact h2 j q g hj hg
          · exact Or.inr hright

/-- C17: in a well-formed store where some occupied position holds `key`, the value
reference and the release action returned by `Acquire(key)` are those of the frame at
the highest index holding `key`, while every frame holding `key` has had `cnt` and
`refCnt` incremented. -/
theorem Acquire_returns_last [BEq K] (c : ClockSweep K V) (hwf : c.WF) (key : K)
    (hex : ∃ i f, c.frameAt i = some f ∧ (f.key == key) = true) :
    ∃ (i p : Nat) (f : Frame K V),
      c.frames[i]? = some (some p) ∧ c.heap[p]? = some f ∧ (f.key == key) = true ∧
      (∀ j g, i < j → c.frameAt j = some g → (g.key == key) ≠ true) ∧
      (c.Acquire key).2 = ⟨some p, some p, none⟩ ∧
      (∀ j g, c.frameAt j = some g → (g.key == key) = true →
        (c.Acquire key).1.frameAt j = some ⟨g.cnt + 1, g.refCnt + 1, g.key, g.value⟩) := by
  obtain ⟨i0, f0, hf0, hk0⟩ := hex
  have hres := Acquire_result c key
  cases hl : lastMatch key c.heap c.frames none with
  | none =>
    exfalso
    obtain ⟨p0, hp0, hpf0⟩ := (frameAt_eq_some c i0 f0).mp hf0
    exact (lastMatch_eq_none_iff key c.heap c.frames).mp hl p0
      ((mem_pointers_iff c p0).mpr ⟨i0, hp0⟩) f0 hpf0 hk0
  | some p =>
    rw [hl] at hres
    simp only at hres
    rcases lastMatch_last key c.heap c.frames none p hl with ⟨h1, _⟩ | ⟨i, hi, ⟨f, hf, hk⟩, hafter⟩
    · exact absurd h1 (by simp)
    · refine ⟨i, p, f, hi, hf, hk, ?_, hres, ?_⟩
      · intro j g hij hg
        obtain ⟨q, hq, hqg⟩ := (frameAt_eq_some c j g).mp hg
        exact hafter j q g hij hq hqg
      · intro j g hg hgk
        rw [frameAt_Acquire c hwf key j, hg]
        simp [touch, hgk]

/-- C17 on a store with key 1 at positions 0 and 1: `Acquire(1)` returns the frame of
position 1. -/
theorem Acquire_returns_last_witness :
    ∃ (i p : Nat) (f : Frame Nat String),
      (⟨[⟨1, 0, 1, "a"⟩, ⟨1, 0, 1, "b"⟩], [some 0, some 1]⟩ :
        ClockSweep Nat String).frames[i]? = some (some p) ∧
      (⟨[⟨1, 0, 1, "a"⟩, ⟨1, 0, 1, "b"⟩], [some 0, some 1]⟩ :
        ClockSweep Nat String).heap[p]? = some f ∧ (f.key == 1) = true ∧
      (∀ j g, i < j →
        (⟨[⟨1, 0, 1, "a"⟩, ⟨1, 0, 1, "b"⟩], [some 0, some 1]⟩ :
          ClockSweep Nat String).frameAt j = some g → (g.key == 1) ≠ true) ∧
      ((⟨[⟨1, 0, 1, "a"⟩, ⟨1, 0, 1, "b"⟩], [some 0, some 1]⟩ :
        ClockSweep Nat String).Acquire 1).2 = ⟨some p, some p, none⟩ ∧
      (∀ j g,
        (⟨[⟨1, 0, 1, "a"⟩, ⟨1, 0, 1, "b"⟩], [some 0, some 1]⟩ :
          ClockSweep Nat String).frameAt j = some g → (g.key == 1) = true →
        ((⟨[⟨1, 0, 1, "a"⟩, ⟨1, 0, 1, "b"⟩], [some 0, some 1]⟩ :
          ClockSweep Nat String).Acquire 1).1.frameAt j
          = some ⟨g.cnt + 1, g.refCnt + 1, g.key, g.value⟩) :=
  Acquire_returns_last
    (⟨[⟨1, 0, 1, "a"⟩, ⟨1, 0, 1, "b"⟩], [some 0, some 1]⟩ : ClockSweep Nat String)
    (by decide) 1 ⟨0, ⟨1, 0, 1, "a"⟩, by decide, rfl⟩

/-! ## The conditional round trip and over-aging -/

/-- After a `Set` that wrote position `i`, when the key is equal to itself under `==`
and no later position holds it, the scan of `Acquire` ends on the frame just allocated
and the value read through the returned reference is the one stored. -/
theorem Acquire_after_Set [BEq K] (c : ClockSweep K V) (hwf : c.WF) (key : K)
    (value : V) (i : Nat) (he : c.evict = (i, true)) (hrefl : (key == key) = true)
    (hlater : ∀ j f, i < j → c.frameAt j = some f → (f.key == key) ≠ true) :
    ((c.Set key value).1.Acquire key).2 = ⟨some c.heap.length, some c.heap.length, none⟩ ∧
    ((c.Set key value).1.Acquire key).1.deref (some c.heap.length) = some value := by
  have hi : i < c.frames.length := eligible_lt_length c i (evict_true c i he).1
  have hSet := Set_of_evict_true c key value i he
  have hfresh : (c.Set key value).1.heap[c.heap.length]? = some ⟨1, 0, key, value⟩ := by
    rw [hSet]; simp
  have hscan : lastMatch key (c.Set key value).1.heap (c.Set key value).1.frames none
      = some c.heap.length := by
    have hframes : (c.Set key value).1.frames
        = c.frames.take i ++ some c.heap.length :: c.frames.drop (i + 1) := by
      rw [hSet]
      simp only
      rw [List.set_eq_take_append_cons_drop, if_pos hi]
    rw [hframes, lastMatch_append]
    simp only [lastMatch, hfresh, hrefl, if_true]
    apply lastMatch_no_match
    intro q hq g hg
    obtain ⟨k, hk⟩ := List.mem_iff_getElem?.mp (List.reduceOption_mem_iff.mp hq)
    rw [List.getElem?_drop] at hk
    obtain ⟨g2, hg2, hga⟩ := hwf.frameAt_of_ptr _ q hk
    have hlt : q < c.heap.length := (List.getElem?_eq_some.mp hg2).1
    rw [hSet] at hg
    simp only at hg
    rw [List.getElem?_append_left hlt, hg2] at hg
    rw [← Option.some.inj hg]
    exact hlater (i + 1 + k) g2 (by omega) hga
  have hres := Acquire_result (c.Set key value).1 key
  rw [hscan] at hres
  refine ⟨hres, ?_⟩
  simp only [deref]
  rw [heap_Acquire (c.Set key value).1 (WF_Set c hwf key value) key c.heap.length, hfresh]
  split <;> simp [touch_value]

/-- C18, counterexample: with keys compared as Go compares float64 values, on
`NewClockSweep(1)`, where no position holds any key, `Set(NaN, "v")` succeeds by
installing at index 0, and the immediately following `Acquire(NaN)` fails with
`ErrKeyNotFound` and ages the frame just installed to `cnt = 0`. -/
theorem conditional_round_trip_counterexample :
    (NewClockSweep FloatKey String 1).map ClockSweep.frames = some [none] ∧
    (NewClockSweep FloatKey String 1).map ClockSweep.pointers = some [] ∧
    (FloatKey.nan == FloatKey.nan) = false ∧
    (⟨[], [none]⟩ : ClockSweep FloatKey String).evict = (0, true) ∧
    ((⟨[], [none]⟩ : ClockSweep FloatKey String).Set FloatKey.nan "v").2 = none ∧
    (((⟨[], [none]⟩ : ClockSweep FloatKey String).Set FloatKey.nan "v").1.frameAt 0).map
        Frame.value = some "v" ∧
    (((⟨[], [none]⟩ : ClockSweep FloatKey String).Set FloatKey.nan "v").1.Acquire
        FloatKey.nan).2 = ⟨none, none, some Error.ErrKeyNotFound⟩ ∧
    ((((⟨[], [none]⟩ : ClockSweep FloatKey String).Set FloatKey.nan "v").1.Acquire
        FloatKey.nan).1.frameAt 0).map Frame.cnt = some 0 := by
  decide

/-- C18, amended: in a well-formed store and for a key `K` that `==` finds equal to
itself, when `Set(K, V)` succeeds by installing at index `i` and no position with a
greater index holds `K`, in particular when no position held `K` before the `Set`, the
immediately following `Acquire(K)` succeeds and returns `V`. -/
theorem conditional_round_trip [BEq K] (c : ClockSweep K V) (hwf : c.WF) (key : K)
    (value : V) (i : Nat) (he : c.evict = (i, true)) (hrefl : (key == key) = true) :
    (c.Set key value).2 = none ∧
    (c.Set key value).1.frameAt i = some ⟨1, 0, key, value⟩ ∧
    ((∀ j f, i < j → c.frameAt j = some f → (f.key == key) ≠ true) →
      ((c.Set key value).1.Acquire key).2.err = none ∧
      ((c.Set key value).1.Acquire key).1.deref ((c.Set key value).1.Acquire key).2.val
        = some value) ∧
    ((∀ j f, c.frameAt j = some f → (f.key == key) ≠ true) →
      ((c.Set key value).1.Acquire key).2.err = none ∧
      ((c.Set key value).1.Acquire key).1.deref ((c.Set key value).1.Acquire key).2.val
        = some value) := by
  have hmain : (∀ j f, i < j → c.frameAt j = some f → (f.key == key) ≠ true) →
      ((c.Set key value).1.Acquire key).2.err = none ∧
      ((c.Set key value).1.Acquire key).1.deref ((c.Set key value).1.Acquire key).2.val
        = some value := by
    intro hlater
    obtain ⟨hres, hval⟩ := Acquire_after_Set c hwf key value i he hrefl hlater
    rw [hres]
    exact ⟨rfl, hval⟩
  refine ⟨?_, ?_, hmain, fun habsent => hmain (fun j f _ hf => habsent j f hf)⟩
  · rw [Set_of_evict_true c key value i he]
  · rw [frameAt_Set c hwf key value i he i, if_pos rfl]

/-- C18, amended, on the store of the package test holding only key 1: `Set(2, "two")`
installs at position 1, key 2 is equal to itself and was absent, and `Acquire(2)`
returns "two". -/
theorem conditional_round_trip_witness :
    (⟨[⟨1, 0, 1, "one"⟩], [some 0, none]⟩ : ClockSweep Nat String).evict = (1, true) ∧
    ((2 : Nat) == 2) = true ∧
    ((((⟨[⟨1, 0, 1, "one"⟩], [some 0, none]⟩ : ClockSweep Nat String).Set
        2 "two").1.Acquire 2).2.err = none ∧
     (((⟨[⟨1, 0, 1, "one"⟩], [some 0, none]⟩ : ClockSweep Nat String).Set
        2 "two").1.Acquire 2).1.deref
       (((⟨[⟨1, 0, 1, "one"⟩], [some 0, none]⟩ : ClockSweep Nat String).Set
        2 "two").1.Acquire 2).2.val = some "two") :=
  ⟨by decide, by decide,
   (conditional_round_trip
      (⟨[⟨1, 0, 1, "one"⟩], [some 0, none]⟩ : ClockSweep Nat String)
      (by decide) 2 "two" 1 (by decide) (by decide)).2.2.2
      (by
        intro j f hf
        match j, hf with
        | 0, hf =>
          have : f = ⟨1, 0, 1, "one"⟩ := by simpa [frameAt] using hf.symm
          subst this; decide
        | 1, hf => simp [frameAt] at hf
        | (j + 2), hf => simp [frameAt] at hf)⟩

/-- C19: on `NewClockSweep(1)`, after `Set(1, "v")` and one `Acquire` of the absent key
9 the frame has `cnt = 0`, `refCnt = 0` and `Set` succeeds; after one more such
`Acquire` it has `cnt = -1`, `refCnt = 0` and `Set` fails with `ErrCapacityExceeded`; and
in every store a position whose frame has `cnt < 0` is not selected by `evict`. -/
theorem aging_not_floored :
    NewClockSweep Nat String 1 = some emptyOne ∧
    (Session.run ⟨emptyOne, []⟩ [.set 1 "v", .acquire 9]).store
      = ⟨[⟨0, 0, 1, "v"⟩], [some 0]⟩ ∧
    ((Session.run ⟨emptyOne, []⟩ [.set 1 "v", .acquire 9]).store.Set 2 "w").2 = none ∧
    (Session.run ⟨emptyOne, []⟩ [.set 1 "v", .acquire 9, .acquire 9]).store
      = ⟨[⟨-1, 0, 1, "v"⟩], [some 0]⟩ ∧
    ((Session.run ⟨emptyOne, []⟩ [.set 1 "v", .acquire 9, .acquire 9]).store.Set 2 "w").2
      = some Error.ErrCapacityExceeded ∧
    (∀ (c : ClockSweep K V) (i : Nat) (f : Frame K V),
      c.frameAt i = some f → f.cnt < 0 → c.evict ≠ (i, true)) := by
  refine ⟨by decide, by decide, by decide, by decide, by decide, ?_⟩
  intro c i f hf hneg he
  have h0 := (evict_true_frame c i f he hf).1
  omega

/-- C19 on the over-aged store: its frame has `cnt = -1` and `evict` does not select
position 0. -/
theorem aging_not_floored_witness :
    (⟨[⟨-1, 0, 1, "v"⟩], [some 0]⟩ : ClockSweep Nat String).frameAt 0
      = some ⟨-1, 0, 1, "v"⟩ ∧
    (⟨[⟨-1, 0, 1, "v"⟩], [some 0]⟩ : ClockSweep Nat String).evict ≠ (0, true) :=
  ⟨by decide,
   (aging_not_floored (K := Nat) (V := String)).2.2.2.2.2
     (⟨[⟨-1, 0, 1, "v"⟩], [some 0]⟩ : ClockSweep Nat String) 0 ⟨-1, 0, 1, "v"⟩
     (by decide) (by decide)⟩

/-! ## Leases stay valid -/

theorem Session.invoked_append [BEq K] (a b : List (Call K V)) :
    ∀ s : Session K V, s.invoked (a ++ b) = s.invoked a ++ (s.run a).invoked b := by
  induction a with
  | nil => intro s; rfl
  | cons call rest ih =>
    intro s
    show s.invokes call ++ (s.step call).invoked (rest ++ b)
      = (s.invokes call ++ (s.step call).invoked rest) ++ ((s.step call).run rest).invoked b
    rw [ih (s.step call), List.append_assoc]

/-- A release closure, once handed out, keeps its number and its frame. -/
theorem Session.step_issued [BEq K] (s : Session K V) (call : Call K V) (n p : Nat)
    (h : s.issued[n]? = some p) : (s.step call).issued[n]? = some p := by
  cases call with
  | set key value => exact h
  | acquire key =>
    simp only [Session.step]
    split
    · have hlt : n < s.issued.length := (List.getElem?_eq_some.mp h).1
      show (s.issued ++ _)[n]? = some p
      rw [List.getElem?_append_left hlt]; exact h
    · exact h
  | release m =>
    simp only [Session.step]
    split
    · exact h
    · exact h

/-- Under the invariant of correct use, one call leaves a frame with an outstanding
lease at its position. -/
theorem Session.step_keeps_leased [BEq K] (s : Session K V) (done : List Nat)
    (call : Call K V) (hinv : s.LeaseInv done) (n p i : Nat)
    (hn : s.issued[n]? = some p) (hout : n ∉ done)
    (hpos : s.store.frames[i]? = some (some p)) :
    (s.step call).store.frames[i]? = some (some p) := by
  obtain ⟨hwf, _, _, href, _⟩ := hinv
  cases call with
  | set key value =>
    rw [Session.step_set_store]
    obtain ⟨f, hpf, hfa⟩ := hwf.frameAt_of_ptr i p hpos
    have hpin : 0 < s.leases done p := Session.leases_pos s done n p hn hout
    have hne : s.store.evict ≠ (i, true) := by
      intro he
      have h0 := (evict_true_frame s.store i f he hfa).2
      have := href p f hpf
      omega
    rw [(Set_keeps_frame s.store hwf key value i hne).1]
    exact hpos
  | acquire key => rw [Session.step_acquire_store, Acquire_frames]; exact hpos
  | release m =>
    rw [Session.step_release_store]
    split
    · rw [release_frames]; exact hpos
    · exact hpos

theorem Session.run_keeps_leased [BEq K] (post : List (Call K V)) :
    ∀ (s : Session K V) (done : List Nat), s.LeaseInv done →
      (done ++ s.invoked post).Nodup → ∀ n p i : Nat, s.issued[n]? = some p →
      n ∉ done ++ s.invoked post → s.store.frames[i]? = some (some p) →
      (s.run post).store.frames[i]? = some (some p) := by
  induction post with
  | nil => intro s done _ _ n p i _ _ hpos; exact hpos
  | cons call rest ih =>
    intro s done hinv hnd n p i hn hout hpos
    have hsplit : s.invoked (call :: rest) = s.invokes call ++ (s.step call).invoked rest :=
      rfl
    rw [hsplit, ← List.append_assoc] at hnd hout
    have hnd1 : (done ++ s.invokes call).Nodup := (List.nodup_append.mp hnd).1
    have hnew : ∀ m ∈ s.invokes call, m ∉ done := fun m hm hmd =>
      (List.nodup_append.mp hnd1).2.2 hmd hm
    have hout0 : n ∉ done := fun h =>
      hout (List.mem_append_left _ (List.mem_append_left _ h))
    exact ih (s.step call) (done ++ s.invokes call)
      (Session.LeaseInv_step s done call hinv hnew) hnd n p i
      (Session.step_issued s call n p hn) hout
      (Session.step_keeps_leased s done call hinv n p i hn hout0 hpos)

/-- C20: along every sequence of calls from `NewClockSweep(capacity)` in which no release
action is invoked twice, a frame captured by a release closure stays at the position
where it was installed for as long as that closure has not been invoked; every lease
still outstanding has its frame at a position of the store; and the `refCnt` of every
frame is at least the number of outstanding leases on it. -/
theorem lease_stays_installed [BEq K] (capacity : Int) (c0 : ClockSweep K V)
    (pre post : List (Call K V)) (h0 : NewClockSweep K V capacity = some c0)
    (honce : Session.OnceEach ⟨c0, []⟩ (pre ++ post)) :
    (∀ n p i : Nat, (Session.run ⟨c0, []⟩ pre).issued[n]? = some p →
      (Session.run ⟨c0, []⟩ pre).store.frames[i]? = some (some p) →
      n ∉ Session.invoked ⟨c0, []⟩ (pre ++ post) →
      (Session.run ⟨c0, []⟩ (pre ++ post)).store.frames[i]? = some (some p)) ∧
    (∀ n p : Nat, (Session.run ⟨c0, []⟩ (pre ++ post)).issued[n]? = some p →
      n ∉ Session.invoked ⟨c0, []⟩ (pre ++ post) →
      ∃ i : Nat, (Session.run ⟨c0, []⟩ (pre ++ post)).store.frames[i]? = some (some p)) ∧
    (∀ (p : Nat) (f : Frame K V),
      (Session.run ⟨c0, []⟩ (pre ++ post)).store.heap[p]? = some f →
      (((Session.run ⟨c0, []⟩ (pre ++ post)).leases
        (Session.invoked ⟨c0, []⟩ (pre ++ post)) p : Nat) : Int) ≤ f.refCnt) := by
  have hall := Session.LeaseInv_of_correct capacity c0 (pre ++ post) h0 honce
  refine ⟨?_, ?_, hall.2.2.2.1⟩
  · intro n p i hn hpos hout
    have happ := Session.invoked_append pre post (⟨c0, []⟩ : Session K V)
    have hnd : (Session.invoked ⟨c0, []⟩ pre
        ++ (Session.run ⟨c0, []⟩ pre).invoked post).Nodup := by
      rw [← happ]; exact honce
    have hpre : Session.OnceEach ⟨c0, []⟩ pre := (List.nodup_append.mp hnd).1
    rw [Session.run_append]
    exact Session.run_keeps_leased post (Session.run ⟨c0, []⟩ pre)
      (Session.invoked ⟨c0, []⟩ pre)
      (Session.LeaseInv_of_correct capacity c0 pre h0 hpre) hnd n p i hn
      (by rw [← happ]; exact hout) hpos
  · intro n p hn hout
    have hpin := Session.leases_pos _ _ n p hn hout
    exact (mem_pointers_iff _ p).mp (hall.2.2.2.2 p hpin)

/-- C20 on the calls of the package test: the lease taken by the second `Acquire(1)` is
outstanding when `Set(3, "three")` runs, and its frame is still at position 0
afterwards. -/
theorem lease_stays_installed_witness :
    (Session.run ⟨emptyTwo, []⟩
      [.set 1 "one", .acquire 1, .release 0, .acquire 2, .set 2 "two", .acquire 1]).issued[1]?
      = some 0 ∧
    1 ∉ Session.invoked ⟨emptyTwo, []⟩
      ([.set 1 "one", .acquire 1, .release 0, .acquire 2, .set 2 "two", .acquire 1]
        ++ [(.set 3 "three" : Call Nat String)]) ∧
    (Session.run ⟨emptyTwo, []⟩
      ([.set 1 "one", .acquire 1, .release 0, .acquire 2, .set 2 "two", .acquire 1]
        ++ [.set 3 "three"])).store.frames[0]? = some (some 0) :=
  ⟨by decide, by decide,
   (lease_stays_installed 2 emptyTwo
      [.set 1 "one", .acquire 1, .release 0, .acquire 2, .set 2 "two", .acquire 1]
      [.set 3 "three"] (by decide) (by decide)).1 1 0 0 (by decide) (by decide)
      (by decide)⟩

end ClockSweepModel
